import Mathlib

/-!
Verification of the maze core of this repository (`src/world.rs`,
`src/disjoint_set.rs`): the 4-dimensional grid model, the randomized-Kruskal
maze generator, the breadth-first-search solver, the move validator
`check_move`, and the union-find structure `DisjointSet`.

Modelling conventions:
* `usize` values are `Nat`; `i32` values are `Int`.  Where the source casts
  (`as usize`, `as i32`) the cast is modelled explicitly when it can matter.
* Rust's `HashMap<T, DSPtr<T>>` is modelled as an association list whose
  `insert` prepends and whose lookup takes the first matching binding (the
  net observable behaviour of `HashMap::insert`/`get`).
* Code that can panic or diverge returns `Option`; `none` models "the call
  does not return normally" (panic or non-termination).
* `DisjointSet::find` recurses without any bound in the source.  A chain of
  representative pointers in a table with `k` bindings either reaches a
  `Top` within `k` hops (the visited keys are pairwise distinct live keys)
  or revisits a key and loops forever.  Hence running the recursion with
  fuel `table.length + 1` models the unbounded recursion exactly: it yields
  `some r` iff the Rust call returns `r`, and `none` iff the Rust call
  panics (missing key) or never returns (cycle).
* The random shuffle (`edges.shuffle(&mut thread_rng())`) is modelled by
  passing the shuffled edge list as a parameter; theorems quantify over an
  arbitrary permutation of the enumerated edge list.
-/

namespace Maze

/-- `enum Wall` from `src/world.rs`. -/
inductive Wall where
  | NoWall : Wall
  | SolidWall : Wall
deriving DecidableEq, Repr

/-- `type Coordinate = (usize, usize, usize, usize)` from `src/world.rs`,
in the source's `(x, y, z, w)` order. -/
abbrev Coordinate : Type := Nat × Nat × Nat × Nat

/-- `enum DSPtr<T>` from `src/disjoint_set.rs`. -/
inductive DSPtr (T : Type) where
  | Ptr : T → DSPtr T
  | Top : DSPtr T
deriving DecidableEq, Repr

/-- `struct DisjointSet<T>`: the `HashMap` table, as an association list
(first-match lookup; insertion prepends, shadowing older bindings). -/
abbrev DisjointSet (T : Type) : Type := List (T × DSPtr T)

namespace DisjointSet

variable {T : Type} [DecidableEq T]

/-- `HashMap::get` on the modelled table: first matching binding. -/
def lookup : DisjointSet T → T → Option (DSPtr T)
  | [], _ => none
  | (k, p) :: rest, key => if key = k then some p else lookup rest key

/-- `DisjointSet::new`. -/
def new : DisjointSet T := []

/-- `DisjointSet::add`: `self.table.insert(val, DSPtr::Top)`. -/
def add (ds : DisjointSet T) (val : T) : DisjointSet T := (val, DSPtr.Top) :: ds

/-- The recursion of `DisjointSet::find`, instrumented with fuel.
`none` models a panic (`expect "Value not in disjoint set"`) or
non-termination. -/
def findFuel : Nat → DisjointSet T → T → Option T
  | 0, _, _ => none
  | fuel + 1, ds, val =>
    match lookup ds val with
    | none => none
    | some (DSPtr.Ptr above) => findFuel fuel ds above
    | some DSPtr.Top => some val

/-- `DisjointSet::find`.  Fuel `table.length + 1` models the unbounded
recursion of the source exactly (see the header comment). -/
def find (ds : DisjointSet T) (val : T) : Option T :=
  findFuel (ds.length + 1) ds val

/-- `DisjointSet::union`: `a`'s representative is pointed at `b`'s
representative.  `none` models a non-returning `find` call inside. -/
def union (ds : DisjointSet T) (a b : T) : Option (DisjointSet T) :=
  match find ds a, find ds b with
  | some aTop, some bTop => some ((aTop, DSPtr.Ptr bTop) :: ds)
  | _, _ => none

/-- `DisjointSet::len`. -/
def len (ds : DisjointSet T) : Nat := ds.length

end DisjointSet

namespace DisjointSet

variable {T : Type} [DecidableEq T]

theorem lookup_cons (k : T) (p : DSPtr T) (ds : DisjointSet T) (v : T) :
    lookup ((k, p) :: ds) v = if v = k then some p else lookup ds v := rfl

theorem findFuel_mono {f g : Nat} {ds : DisjointSet T} {v r : T}
    (h : findFuel f ds v = some r) (hfg : f ≤ g) : findFuel g ds v = some r := by
  induction f generalizing v g with
  | zero => simp [findFuel] at h
  | succ f ih =>
    obtain ⟨g, rfl⟩ : ∃ g', g = g' + 1 := ⟨g - 1, by omega⟩
    simp only [findFuel] at h ⊢
    cases hl : lookup ds v with
    | none => simp [hl] at h
    | some p =>
      cases p with
      | Ptr above => simp only [hl] at h ⊢; exact ih h (by omega)
      | Top => simpa [hl] using h

/-- The value returned by a successful `find` is mapped to `Top`. -/
theorem findFuel_lookup_top {f : Nat} {ds : DisjointSet T} {v r : T}
    (h : findFuel f ds v = some r) : lookup ds r = some DSPtr.Top := by
  induction f generalizing v with
  | zero => simp [findFuel] at h
  | succ f ih =>
    simp only [findFuel] at h
    cases hl : lookup ds v with
    | none => simp [hl] at h
    | some p =>
      cases p with
      | Ptr above => simp only [hl] at h; exact ih h
      | Top => simp [hl] at h; subst h; exact hl

theorem find_lookup_top {ds : DisjointSet T} {v r : T}
    (h : find ds v = some r) : lookup ds r = some DSPtr.Top :=
  findFuel_lookup_top h

/-- `find` on a key mapped to `Top` returns the key itself. -/
theorem find_of_top {ds : DisjointSet T} {v : T}
    (h : lookup ds v = some DSPtr.Top) : find ds v = some v := by
  simp [find, findFuel, h]

/-- `find` on a key that was never added panics. -/
theorem find_of_not_mem {ds : DisjointSet T} {v : T}
    (h : lookup ds v = none) : find ds v = none := by
  simp [find, findFuel, h]

/-- Grafting lemma: prepending the binding `rA ↦ Ptr rB` (with `rA`, `rB`
roots of the table and `rB ≠ rA`) redirects every chain that ended at `rA`
to end at `rB` and leaves every other chain's endpoint unchanged, at the
cost of at most one extra hop. -/
theorem findFuel_graft {ds : DisjointSet T} {rA rB : T}
    (hA : lookup ds rA = some DSPtr.Top) (hB : lookup ds rB = some DSPtr.Top)
    (hne : rB ≠ rA) {f : Nat} {v r : T} (h : findFuel f ds v = some r) :
    findFuel (f + 1) ((rA, DSPtr.Ptr rB) :: ds) v = some (if r = rA then rB else r) := by
  induction f generalizing v with
  | zero => simp [findFuel] at h
  | succ f ih =>
    simp only [findFuel] at h
    cases hl : lookup ds v with
    | none => simp [hl] at h
    | some p =>
      cases p with
      | Ptr above =>
        simp only [hl] at h
        have hvA : v ≠ rA := by
          intro hv; subst hv; rw [hA] at hl; cases hl
        have := ih h
        simp only [findFuel, lookup_cons, if_neg hvA, hl]
        exact this
      | Top =>
        simp only [hl] at h
        injection h with h; subst h
        by_cases hv : v = rA
        · subst hv
          have l1 : lookup ((v, DSPtr.Ptr rB) :: ds) v = some (DSPtr.Ptr rB) := by
            rw [lookup_cons, if_pos rfl]
          have l2 : lookup ((v, DSPtr.Ptr rB) :: ds) rB = some DSPtr.Top := by
            rw [lookup_cons, if_neg hne, hB]
          simp [findFuel, l1, l2]
        · have l1 : lookup ((rA, DSPtr.Ptr rB) :: ds) v = some DSPtr.Top := by
            rw [lookup_cons, if_neg hv, hl]
          simp [findFuel, l1, hv]

/-- The chain of representative pointers from `v` reaches the `Top`-mapped
key `r` in exactly `n` hops. -/
inductive FindRelN (ds : DisjointSet T) : Nat → T → T → Prop where
  | top {v : T} : lookup ds v = some DSPtr.Top → FindRelN ds 0 v v
  | step {n : Nat} {v u r : T} : lookup ds v = some (DSPtr.Ptr u) →
      FindRelN ds n u r → FindRelN ds (n + 1) v r

/-- The chain of representative pointers from `v` reaches the `Top`-mapped
key `r` (spec: "following representative pointers to a fixed point"). -/
def FindRel (ds : DisjointSet T) (v r : T) : Prop := ∃ n, FindRelN ds n v r

/-- Every chain in a table that forms a valid forest reaches a `Top`. -/
def ValidForest (ds : DisjointSet T) : Prop :=
  ∀ k : T, (lookup ds k).isSome → ∃ r, FindRel ds k r

theorem FindRelN_det {ds : DisjointSet T} :
    ∀ {n m : Nat} {v r s : T}, FindRelN ds n v r → FindRelN ds m v s →
      n = m ∧ r = s := by
  intro n m v r s h1 h2
  induction h1 generalizing m s with
  | top hl =>
    cases h2 with
    | top hl' => exact ⟨rfl, rfl⟩
    | step hl' _ => rw [hl] at hl'; cases hl'
  | step hl _ ih =>
    cases h2 with
    | top hl' => rw [hl] at hl'; cases hl'
    | step hl' htail =>
      rw [hl] at hl'
      injection hl' with hl'
      injection hl' with hl'
      subst hl'
      obtain ⟨hn, hr⟩ := ih htail
      exact ⟨by omega, hr⟩

theorem FindRelN_findFuel {ds : DisjointSet T} {n : Nat} {v r : T}
    (h : FindRelN ds n v r) : findFuel (n + 1) ds v = some r := by
  induction h with
  | top hl => simp [findFuel, hl]
  | step hl _ ih => simpa [findFuel, hl] using ih

theorem findFuel_FindRelN {ds : DisjointSet T} :
    ∀ {f : Nat} {v r : T}, findFuel f ds v = some r → ∃ n, n + 1 ≤ f ∧ FindRelN ds n v r := by
  intro f
  induction f with
  | zero => intro v r h; simp [findFuel] at h
  | succ f ih =>
    intro v r h
    simp only [findFuel] at h
    cases hl : lookup ds v with
    | none => simp [hl] at h
    | some p =>
      cases p with
      | Ptr above =>
        simp only [hl] at h
        obtain ⟨n, hn, hrel⟩ := ih h
        exact ⟨n + 1, by omega, FindRelN.step hl hrel⟩
      | Top =>
        simp only [hl] at h
        injection h with h; subst h
        exact ⟨0, by omega, FindRelN.top hl⟩

/-- The keys visited along a pointer chain: pairwise distinct, and all of
them live keys of the table.  This is what makes fuel `table.length + 1`
sufficient. -/
theorem FindRelN_chain_nodup {ds : DisjointSet T} {n : Nat} {v r : T}
    (h : FindRelN ds n v r) :
    ∃ l : List T, l.length = n + 1 ∧ l.Nodup ∧
      (∀ x ∈ l, (lookup ds x).isSome) ∧ (∀ x ∈ l, ∃ j, j ≤ n ∧ FindRelN ds j x r) := by
  induction h with
  | top hl =>
    rename_i v'
    refine ⟨[v'], rfl, List.nodup_singleton _, ?_, ?_⟩
    · intro x hx; rw [List.mem_singleton] at hx; subst hx; simp [hl]
    · intro x hx; rw [List.mem_singleton] at hx; subst hx
      exact ⟨0, le_refl 0, FindRelN.top hl⟩
  | step hl htail ih =>
    rename_i m v' u r'
    obtain ⟨l, hlen, hnd, hlive, hrel⟩ := ih
    refine ⟨v' :: l, by simp [hlen], ?_, ?_, ?_⟩
    · rw [List.nodup_cons]
      refine ⟨fun hv => ?_, hnd⟩
      obtain ⟨j, hj, hrelj⟩ := hrel v' hv
      obtain ⟨hjm, -⟩ := FindRelN_det hrelj (FindRelN.step hl htail)
      omega
    · intro x hx
      rcases List.mem_cons.mp hx with hx | hx
      · subst hx; simp [hl]
      · exact hlive x hx
    · intro x hx
      rcases List.mem_cons.mp hx with hx | hx
      · subst hx; exact ⟨m + 1, le_refl _, FindRelN.step hl htail⟩
      · obtain ⟨j, hj, hrelj⟩ := hrel x hx
        exact ⟨j, by omega, hrelj⟩

/-- Keys with a live binding all occur among the table's keys, so a
pairwise-distinct chain has at most `table.length` entries. -/
theorem mem_keys_of_lookup_isSome {ds : DisjointSet T} {x : T}
    (h : (lookup ds x).isSome) : x ∈ ds.map Prod.fst := by
  induction ds with
  | nil => simp [lookup] at h
  | cons hd tl ih =>
    obtain ⟨k, p⟩ := hd
    rw [lookup_cons] at h
    by_cases hxk : x = k
    · simp [hxk]
    · rw [if_neg hxk] at h
      simpa using Or.inr (ih h)

theorem chain_length_le {ds : DisjointSet T} {l : List T}
    (hnd : l.Nodup) (hlive : ∀ x ∈ l, (lookup ds x).isSome) :
    l.length ≤ ds.length := by
  have hsub : ∀ x ∈ l, x ∈ ds.map Prod.fst := fun x hx =>
    mem_keys_of_lookup_isSome (hlive x hx)
  calc l.length = l.toFinset.card := (List.toFinset_card_of_nodup hnd).symm
    _ ≤ (ds.map Prod.fst).toFinset.card := by
        apply Finset.card_le_card
        intro x hx
        rw [List.mem_toFinset] at hx ⊢
        exact hsub x hx
    _ ≤ (ds.map Prod.fst).length := (ds.map Prod.fst).toFinset_card_le
    _ = ds.length := List.length_map _ _

/-- Exactness: if the pointer chain from `v` reaches the fixed point `r`,
then `find` (with its fuel `table.length + 1`) returns it. -/
theorem find_of_FindRel {ds : DisjointSet T} {v r : T}
    (h : FindRel ds v r) : find ds v = some r := by
  obtain ⟨n, hrel⟩ := h
  obtain ⟨l, hlen, hnd, hlive, -⟩ := FindRelN_chain_nodup hrel
  have hn : n + 1 ≤ ds.length := hlen ▸ chain_length_le hnd hlive
  exact findFuel_mono (FindRelN_findFuel hrel) (by omega)

/-- Conversely a successful `find` exhibits the pointer chain. -/
theorem FindRel_of_find {ds : DisjointSet T} {v r : T}
    (h : find ds v = some r) : FindRel ds v r := by
  obtain ⟨n, -, hrel⟩ := findFuel_FindRelN h
  exact ⟨n, hrel⟩

/-- Grafting lemma at the level of `find`: after `union` inserts
`rA ↦ Ptr rB`, chains ending at `rA` end at `rB` and all others are
unchanged. -/
theorem find_graft {ds : DisjointSet T} {rA rB : T}
    (hA : lookup ds rA = some DSPtr.Top) (hB : lookup ds rB = some DSPtr.Top)
    (hne : rB ≠ rA) {v r : T} (h : find ds v = some r) :
    find ((rA, DSPtr.Ptr rB) :: ds) v = some (if r = rA then rB else r) := by
  have := findFuel_graft hA hB hne h
  simpa [find, List.length_cons] using this

end DisjointSet

/-- A four-dimensional wall array, indexed `w z y x` like the source's
`walls[w][z][y][x]`.  The source stores nested boxed slices of fixed
extents; a total function together with the extents recorded in `World`
is an extensionally equivalent model of such an array. -/
abbrev W4 : Type := Nat → Nat → Nat → Nat → Wall

/-- Pointwise update of one entry of a wall array (`walls[w][z][y][x] = v`). -/
def upd4 (f : W4) (w z y x : Nat) (v : Wall) : W4 :=
  fun w' z' y' x' => if w' = w ∧ z' = z ∧ y' = y ∧ x' = x then v else f w' z' y' x'

/-- The maze-relevant fields of `struct World` (`src/world.rs`).  The
rendering-only fields (buffer pools, vertex buffers, `cells` occupancy)
are out of scope per the spec.  `solution` entries are stored in the
source as `[i32; 4]` obtained by `u as i32` from the coordinates; the
cast is value-preserving for every coordinate of an allocatable grid, so
the entries are modelled as the coordinates themselves. -/
structure World where
  width : Nat
  height : Nat
  depth : Nat
  fourth : Nat
  /-- Vertical walls, `fourth × depth × height × (width + 1)`. -/
  xwalls : W4
  /-- Horizontal walls, `fourth × depth × (height + 1) × width`. -/
  ywalls : W4
  /-- Floors/ceilings, `fourth × (depth + 1) × height × width`. -/
  zwalls : W4
  /-- Fourth-dimension walls, `(fourth + 1) × depth × height × width`. -/
  wwalls : W4
  start : Coordinate
  finish : Coordinate
  solution : List Coordinate

/-- The `World` literal built at the start of `World::new`: every wall
`SolidWall`, `start = (0,0,0,0)`, `finish = (width-1, height-1, depth-1,
fourth-1)`, empty solution. -/
def initialWorld (width height depth fourth : Nat) : World where
  width := width
  height := height
  depth := depth
  fourth := fourth
  xwalls := fun _ _ _ _ => Wall.SolidWall
  ywalls := fun _ _ _ _ => Wall.SolidWall
  zwalls := fun _ _ _ _ => Wall.SolidWall
  wwalls := fun _ _ _ _ => Wall.SolidWall
  start := (0, 0, 0, 0)
  finish := (width - 1, height - 1, depth - 1, fourth - 1)
  solution := []

/-- `v as usize` for a 64-bit target: reinterpret an `i32` value as an
unsigned 64-bit integer (two's-complement wrap). -/
def usizeOfI32 (v : Int) : Nat := (v % (2 : Int) ^ 64).toNat

/-- Reading `arr[w][z][y][x]` from a wall array of extents
`we × ze × ye × xe`; `none` models the panic of an out-of-bounds slice
index. -/
def wallAt (f : W4) (we ze ye xe : Nat) (w z y x : Nat) : Option Wall :=
  if w < we ∧ z < ze ∧ y < ye ∧ x < xe then some (f w z y x) else none

/-- Mapping a looked-up `Wall` to the boolean result of `check_move`. -/
def wallPassable : Option Wall → Option Bool :=
  Option.map (fun wall => match wall with
    | Wall.SolidWall => false
    | Wall.NoWall => true)

/-- `World::check_move` (`src/world.rs:495`).  `current` and `delta` are
`[i32; 4]` values `(x, y, z, w)`; each arm of the source `match` reads one
wall array after casting `current`'s entries to `usize`.  The final arm
returns `false` for every `delta` that is not a unit vector. -/
def checkMove (wld : World) (current delta : Int × Int × Int × Int) : Option Bool :=
  let x := usizeOfI32 current.1
  let y := usizeOfI32 current.2.1
  let z := usizeOfI32 current.2.2.1
  let w := usizeOfI32 current.2.2.2
  if delta = (-1, 0, 0, 0) then
    wallPassable (wallAt wld.xwalls wld.fourth wld.depth wld.height (wld.width + 1) w z y x)
  else if delta = (1, 0, 0, 0) then
    wallPassable (wallAt wld.xwalls wld.fourth wld.depth wld.height (wld.width + 1) w z y (x + 1))
  else if delta = (0, -1, 0, 0) then
    wallPassable (wallAt wld.ywalls wld.fourth wld.depth (wld.height + 1) wld.width w z y x)
  else if delta = (0, 1, 0, 0) then
    wallPassable (wallAt wld.ywalls wld.fourth wld.depth (wld.height + 1) wld.width w z (y + 1) x)
  else if delta = (0, 0, 1, 0) then
    wallPassable (wallAt wld.zwalls wld.fourth (wld.depth + 1) wld.height wld.width w (z + 1) y x)
  else if delta = (0, 0, -1, 0) then
    wallPassable (wallAt wld.zwalls wld.fourth (wld.depth + 1) wld.height wld.width w z y x)
  else if delta = (0, 0, 0, 1) then
    wallPassable (wallAt wld.wwalls (wld.fourth + 1) wld.depth wld.height wld.width (w + 1) z y x)
  else if delta = (0, 0, 0, -1) then
    wallPassable (wallAt wld.wwalls (wld.fourth + 1) wld.depth wld.height wld.width w z y x)
  else
    some false

/-- `enum MazeEdge` from `World::generate_maze`. -/
inductive MazeEdge where
  | XWall : Coordinate → MazeEdge
  | YWall : Coordinate → MazeEdge
  | ZWall : Coordinate → MazeEdge
  | WWall : Coordinate → MazeEdge
deriving DecidableEq, Repr

/-- The candidate edges contributed by one cell `(x, y, z, w)`: one edge
per axis on which the cell's coordinate is nonzero. -/
def blockEdges (x y z w : Nat) : List MazeEdge :=
  (if x ≠ 0 then [MazeEdge.XWall (x, y, z, w)] else []) ++
  (if y ≠ 0 then [MazeEdge.YWall (x, y, z, w)] else []) ++
  (if z ≠ 0 then [MazeEdge.ZWall (x, y, z, w)] else []) ++
  (if w ≠ 0 then [MazeEdge.WWall (x, y, z, w)] else [])

/-- The candidate-edge enumeration of `generate_maze`: for every cell, one
edge per axis on which the cell's coordinate is nonzero (boundaries at
coordinate 0 are outer walls and are skipped). -/
def enumEdges (width height depth fourth : Nat) : List MazeEdge :=
  (List.range fourth).flatMap fun w =>
    (List.range depth).flatMap fun z =>
      (List.range height).flatMap fun y =>
        (List.range width).flatMap fun x =>
          blockEdges x y z w

/-- The two cells separated by a candidate edge.  On enumerated edges the
decremented coordinate is nonzero, so the `usize` subtraction of the
source cannot underflow and agrees with truncated subtraction. -/
def cellPair : MazeEdge → Coordinate × Coordinate
  | MazeEdge.XWall (x, y, z, w) => ((x - 1, y, z, w), (x, y, z, w))
  | MazeEdge.YWall (x, y, z, w) => ((x, y - 1, z, w), (x, y, z, w))
  | MazeEdge.ZWall (x, y, z, w) => ((x, y, z - 1, w), (x, y, z, w))
  | MazeEdge.WWall (x, y, z, w) => ((x, y, z, w - 1), (x, y, z, w))

/-- The cell list used to initialise the disjoint set, in loop order. -/
def allCellsList (width height depth fourth : Nat) : List Coordinate :=
  (List.range fourth).flatMap fun w =>
    (List.range depth).flatMap fun z =>
      (List.range height).flatMap fun y =>
        (List.range width).map fun x => (x, y, z, w)

/-- State of the Kruskal loop: the four wall arrays, the disjoint set and
the accumulated neighbor map (`HashMap<Coordinate, Vec<Coordinate>>`,
absent key ≡ empty vector). -/
structure KState where
  xw : W4
  yw : W4
  zw : W4
  ww : W4
  ds : DisjointSet Coordinate
  nbrs : Coordinate → List Coordinate

/-- Setting the wall addressed by a candidate edge to `NoWall`. -/
def carveEdge (st : KState) : MazeEdge → KState
  | MazeEdge.XWall (x, y, z, w) => { st with xw := upd4 st.xw w z y x Wall.NoWall }
  | MazeEdge.YWall (x, y, z, w) => { st with yw := upd4 st.yw w z y x Wall.NoWall }
  | MazeEdge.ZWall (x, y, z, w) => { st with zw := upd4 st.zw w z y x Wall.NoWall }
  | MazeEdge.WWall (x, y, z, w) => { st with ww := upd4 st.ww w z y x Wall.NoWall }

/-- Reading the wall addressed by a candidate edge. -/
def edgeWall (st : KState) : MazeEdge → Wall
  | MazeEdge.XWall (x, y, z, w) => st.xw w z y x
  | MazeEdge.YWall (x, y, z, w) => st.yw w z y x
  | MazeEdge.ZWall (x, y, z, w) => st.zw w z y x
  | MazeEdge.WWall (x, y, z, w) => st.ww w z y x

/-- Appending `b` to `a`'s neighbor vector (the source's
`contains_key`/`insert(Vec::new())`/`push` sequence has exactly this
effect on the absent-key-≡-empty-vector view). -/
def pushNbr (nbrs : Coordinate → List Coordinate) (a b : Coordinate) :
    Coordinate → List Coordinate :=
  fun c => if c = a then nbrs c ++ [b] else nbrs c

/-- One iteration of the Kruskal loop of `generate_maze`. -/
def kruskalStep (st : KState) (edge : MazeEdge) : Option KState :=
  let cellA := (cellPair edge).1
  let cellB := (cellPair edge).2
  match DisjointSet.find st.ds cellA, DisjointSet.find st.ds cellB with
  | some setA, some setB =>
    if setA ≠ setB then
      match DisjointSet.union st.ds setA setB with
      | some ds2 =>
        some { carveEdge st edge with
                 ds := ds2
                 nbrs := pushNbr (pushNbr st.nbrs cellA cellB) cellB cellA }
      | none => none
    else
      some st
  | _, _ => none

/-- The Kruskal loop over the (shuffled) edge list. -/
def kruskalRun : KState → List MazeEdge → Option KState
  | st, [] => some st
  | st, e :: es =>
    match kruskalStep st e with
    | some st2 => kruskalRun st2 es
    | none => none

/-- State of the breadth-first search: the visited set, the FIFO queue and
the back-pointer map. -/
structure BState where
  vis : Coordinate → Bool
  queue : List Coordinate
  bt : Coordinate → Option Coordinate

/-- The body of the `for n in neighbors...` loop of the BFS. -/
def bfsInner (cell : Coordinate) (s : BState) (n : Coordinate) : BState :=
  if s.vis n then s
  else { vis := fun c => if c = n then true else s.vis c
         queue := s.queue ++ [n]
         bt := fun c => if c = n then some cell else s.bt c }

/-- Processing all neighbors of a dequeued cell. -/
def bfsProcess (cell : Coordinate) (ns : List Coordinate) (s : BState) : BState :=
  ns.foldl (bfsInner cell) s

/-- The `while !queue.is_empty()` loop of the BFS, instrumented with fuel.
Every enqueued cell is marked visited when enqueued and only unvisited
cells are enqueued, so the loop performs at most one iteration per cell;
`generate_maze` passes fuel `cell count + 1`, which therefore models the
unbounded loop exactly. -/
def bfsLoop (nbrs : Coordinate → List Coordinate) :
    Nat → BState → Option (Coordinate → Option Coordinate)
  | _, ⟨_, [], bt⟩ => some bt
  | 0, ⟨_, _ :: _, _⟩ => none
  | fuel + 1, ⟨vis, cell :: rest, bt⟩ =>
    bfsLoop nbrs fuel (bfsProcess cell (nbrs cell) ⟨vis, rest, bt⟩)

/-- The backtracking loop recovering the path from `finish` to `start`,
instrumented with fuel.  Back-pointers strictly decrease the BFS distance
to the start, so the chain from any visited cell is shorter than the cell
count; `generate_maze` passes fuel `cell count + 1`, which models the
unbounded loop exactly. -/
def backtrackRun (bt : Coordinate → Option Coordinate) (start : Coordinate) :
    Nat → Coordinate → List Coordinate → Option (List Coordinate)
  | fuel, previous, acc =>
    if previous = start then some acc
    else
      match fuel with
      | 0 => none
      | fuel + 1 =>
        match bt previous with
        | none => none
        | some p => backtrackRun bt start fuel p (acc ++ [p])

/-- `World::generate_maze` (`src/world.rs:270`), with the shuffled
candidate-edge list passed as a parameter (the source shuffles in place
with `thread_rng`).  `none` models a panicking or non-terminating run;
for any permutation of the enumerated edges the run completes (proved
below). -/
def generateMaze (edges : List MazeEdge) (world : World) : Option World :=
  let n := world.width * world.height * world.depth * world.fourth
  let st0 : KState :=
    { xw := world.xwalls, yw := world.ywalls, zw := world.zwalls, ww := world.wwalls
      ds := (allCellsList world.width world.height world.depth world.fourth).foldl
        DisjointSet.add DisjointSet.new
      nbrs := fun _ => [] }
  match kruskalRun st0 edges with
  | none => none
  | some st =>
    -- Generate exit at bottom right corner of top layer in last w
    let xw2 := upd4 st.xw (world.fourth - 1) (world.depth - 1) (world.height - 1)
      world.width Wall.NoWall
    let s0 : BState :=
      { vis := fun c => decide (c = ((0, 0, 0, 0) : Coordinate))
        queue := [(0, 0, 0, 0)]
        bt := fun _ => none }
    match bfsLoop st.nbrs (n + 1) s0 with
    | none => none
    | some bt =>
      match backtrackRun bt world.start (n + 1) world.finish [world.finish] with
      | none => none
      | some sol =>
        some { world with
                 xwalls := xw2, ywalls := st.yw, zwalls := st.zw, wwalls := st.ww
                 solution := sol.reverse }

/-! ### Support definitions for the `check_move` claims -/

/-- The eight 4-D unit vectors: ±1 on exactly one axis, 0 on the others. -/
def UnitDelta (d : Int × Int × Int × Int) : Prop :=
  d = (1, 0, 0, 0) ∨ d = (-1, 0, 0, 0) ∨ d = (0, 1, 0, 0) ∨ d = (0, -1, 0, 0) ∨
  d = (0, 0, 1, 0) ∨ d = (0, 0, -1, 0) ∨ d = (0, 0, 0, 1) ∨ d = (0, 0, 0, -1)

instance (d : Int × Int × Int × Int) : Decidable (UnitDelta d) := by
  unfold UnitDelta; infer_instance

/-- An `[i32; 4]` coordinate lying within the grid bounds on all four
axes.  The `< 2 ^ 31` conjuncts record representability in `i32`: every
value the source can hold in `current` satisfies them by construction. -/
def inBoundsI (wld : World) (c : Int × Int × Int × Int) : Prop :=
  (0 ≤ c.1 ∧ c.1 < (wld.width : Int) ∧ c.1 < 2 ^ 31) ∧
  (0 ≤ c.2.1 ∧ c.2.1 < (wld.height : Int) ∧ c.2.1 < 2 ^ 31) ∧
  (0 ≤ c.2.2.1 ∧ c.2.2.1 < (wld.depth : Int) ∧ c.2.2.1 < 2 ^ 31) ∧
  (0 ≤ c.2.2.2 ∧ c.2.2.2 < (wld.fourth : Int) ∧ c.2.2.2 < 2 ^ 31)

instance (wld : World) (c : Int × Int × Int × Int) : Decidable (inBoundsI wld c) := by
  unfold inBoundsI; infer_instance

/-- Componentwise `a + delta` on `[i32; 4]` coordinates. -/
def addDelta (a d : Int × Int × Int × Int) : Int × Int × Int × Int :=
  (a.1 + d.1, a.2.1 + d.2.1, a.2.2.1 + d.2.2.1, a.2.2.2 + d.2.2.2)

/-- Componentwise negation of an `[i32; 4]` delta. -/
def negDelta (d : Int × Int × Int × Int) : Int × Int × Int × Int :=
  (-d.1, -d.2.1, -d.2.2.1, -d.2.2.2)

theorem usizeOfI32_eq_toNat {v : Int} (h0 : 0 ≤ v) (h31 : v < 2 ^ 31) :
    usizeOfI32 v = v.toNat := by
  unfold usizeOfI32
  have : v % (2 : Int) ^ 64 = v := Int.emod_eq_of_lt h0 (by omega)
  rw [this]

theorem wallPassable_eq_some_true {f : W4} {we ze ye xe w z y x : Nat} :
    wallPassable (wallAt f we ze ye xe w z y x) = some true ↔
      (w < we ∧ z < ze ∧ y < ye ∧ x < xe) ∧ f w z y x = Wall.NoWall := by
  unfold wallPassable wallAt
  by_cases h : w < we ∧ z < ze ∧ y < ye ∧ x < xe
  · simp only [if_pos h, Option.map_some]
    cases hw : f w z y x <;> simp [h, hw]
  · simp [if_neg h, h]

theorem wallPassable_isSome {f : W4} {we ze ye xe w z y x : Nat}
    (h : w < we ∧ z < ze ∧ y < ye ∧ x < xe) :
    (wallPassable (wallAt f we ze ye xe w z y x)).isSome := by
  simp [wallPassable, wallAt, if_pos h]

/-- C5: `check_move` on any delta that is not one of the eight unit
vectors returns `false`, for every world and every current coordinate
(the final `match` arm; no wall array is read). -/
theorem check_move_nonunit_false (wld : World) (current delta : Int × Int × Int × Int)
    (h : ¬ UnitDelta delta) : checkMove wld current delta = some false := by
  unfold checkMove
  split_ifs with h1 h2 h3 h4 h5 h6 h7 h8
  · exact absurd (Or.inr (Or.inl h1)) h
  · exact absurd (Or.inl h2) h
  · exact absurd (Or.inr (Or.inr (Or.inr (Or.inl h3)))) h
  · exact absurd (Or.inr (Or.inr (Or.inl h4))) h
  · exact absurd (Or.inr (Or.inr (Or.inr (Or.inr (Or.inl h5))))) h
  · exact absurd (Or.inr (Or.inr (Or.inr (Or.inr (Or.inr (Or.inl h6)))))) h
  · exact absurd (Or.inr (Or.inr (Or.inr (Or.inr (Or.inr (Or.inr (Or.inl h7))))))) h
  · exact absurd (Or.inr (Or.inr (Or.inr (Or.inr (Or.inr (Or.inr (Or.inr h8))))))) h
  · rfl

set_option maxHeartbeats 1000000 in
/-- C10: `check_move` is total for in-bounds cells: whenever `current`
lies within the grid bounds on all four axes, every wall-array access of
`check_move` is within the array extents, so the call returns a boolean
(never panics) for **every** `delta`. -/
theorem check_move_total (wld : World) (current : Int × Int × Int × Int)
    (hin : inBoundsI wld current) (delta : Int × Int × Int × Int) :
    (checkMove wld current delta).isSome := by
  obtain ⟨⟨hx0, hxw, hx31⟩, ⟨hy0, hyw, hy31⟩, ⟨hz0, hzw, hz31⟩, ⟨hw0, hww, hw31⟩⟩ := hin
  have ex : usizeOfI32 current.1 = current.1.toNat := usizeOfI32_eq_toNat hx0 hx31
  have ey : usizeOfI32 current.2.1 = current.2.1.toNat := usizeOfI32_eq_toNat hy0 hy31
  have ez : usizeOfI32 current.2.2.1 = current.2.2.1.toNat := usizeOfI32_eq_toNat hz0 hz31
  have ew : usizeOfI32 current.2.2.2 = current.2.2.2.toNat := usizeOfI32_eq_toNat hw0 hw31
  unfold checkMove
  split_ifs <;> first
    | (refine wallPassable_isSome ⟨?_, ?_, ?_, ?_⟩ <;> simp only [ex, ey, ez, ew] <;> omega)
    | rfl

set_option maxHeartbeats 2000000 in
/-- C4: walls are bidirectional.  For an in-bounds coordinate `a` and a
unit step `delta` with `a + delta` also in bounds, `check_move (a, delta)`
and `check_move (a + delta, -delta)` read the same wall-array entry, so if
the former returns `true` the latter does as well. -/
theorem check_move_symm (wld : World) (a delta : Int × Int × Int × Int)
    (ha : inBoundsI wld a) (hu : UnitDelta delta)
    (hb : inBoundsI wld (addDelta a delta))
    (h : checkMove wld a delta = some true) :
    checkMove wld (addDelta a delta) (negDelta delta) = some true := by
  obtain ⟨ax, ay, az, aw⟩ := a
  obtain ⟨⟨hx0, hxw, hx31⟩, ⟨hy0, hyw, hy31⟩, ⟨hz0, hzw, hz31⟩, ⟨hw0, hww, hw31⟩⟩ := ha
  dsimp only at hx0 hxw hx31 hy0 hyw hy31 hz0 hzw hz31 hw0 hww hw31
  have ex : usizeOfI32 ax = ax.toNat := by unfold usizeOfI32; omega
  have ey : usizeOfI32 ay = ay.toNat := by unfold usizeOfI32; omega
  have ez : usizeOfI32 az = az.toNat := by unfold usizeOfI32; omega
  have ew : usizeOfI32 aw = aw.toNat := by unfold usizeOfI32; omega
  rcases hu with rfl | rfl | rfl | rfl | rfl | rfl | rfl | rfl <;>
    simp only [addDelta, negDelta, neg_zero, neg_neg, add_zero] at hb ⊢ <;>
    obtain ⟨⟨hx0b, hxwb, hx31b⟩, ⟨hy0b, hywb, hy31b⟩, ⟨hz0b, hzwb, hz31b⟩,
      ⟨hw0b, hwwb, hw31b⟩⟩ := hb <;>
    dsimp only at hx0b hxwb hx31b hy0b hywb hy31b hz0b hzwb hz31b hw0b hwwb hw31b <;>
    norm_num [checkMove, Prod.mk.injEq] at h ⊢
  · have e1 : usizeOfI32 (ax + 1) = usizeOfI32 ax + 1 := by unfold usizeOfI32; omega
    rw [e1]; exact h
  · have e1 : usizeOfI32 (ax + -1) + 1 = usizeOfI32 ax := by unfold usizeOfI32; omega
    rw [e1]; exact h
  · have e1 : usizeOfI32 (ay + 1) = usizeOfI32 ay + 1 := by unfold usizeOfI32; omega
    rw [e1]; exact h
  · have e1 : usizeOfI32 (ay + -1) + 1 = usizeOfI32 ay := by unfold usizeOfI32; omega
    rw [e1]; exact h
  · have e1 : usizeOfI32 (az + 1) = usizeOfI32 az + 1 := by unfold usizeOfI32; omega
    rw [e1]; exact h
  · have e1 : usizeOfI32 (az + -1) + 1 = usizeOfI32 az := by unfold usizeOfI32; omega
    rw [e1]; exact h
  · have e1 : usizeOfI32 (aw + 1) = usizeOfI32 aw + 1 := by unfold usizeOfI32; omega
    rw [e1]; exact h
  · have e1 : usizeOfI32 (aw + -1) + 1 = usizeOfI32 aw := by unfold usizeOfI32; omega
    rw [e1]; exact h

/-! ### The DisjointSet claims -/

/-- C7: `find` fails irrecoverably (panics) on a key that was never added;
on a registered key of a table whose pointer chains all reach a `Top`
(a valid forest), `find` succeeds and returns the fixed point reached by
following representative pointers from the key: a key mapped to `Top`. -/
theorem find_contract {T : Type} [DecidableEq T] (ds : DisjointSet T) (key : T) :
    (DisjointSet.lookup ds key = none → DisjointSet.find ds key = none) ∧
    (DisjointSet.ValidForest ds → (DisjointSet.lookup ds key).isSome →
      ∃ r, DisjointSet.find ds key = some r ∧ DisjointSet.FindRel ds key r ∧
        DisjointSet.lookup ds r = some DSPtr.Top) := by
  constructor
  · exact DisjointSet.find_of_not_mem
  · intro hvf hsome
    obtain ⟨r, hrel⟩ := hvf key hsome
    have hfind := DisjointSet.find_of_FindRel hrel
    exact ⟨r, hfind, hrel, DisjointSet.find_lookup_top hfind⟩

/-- C8: `find` is idempotent and observably pure.  The source's `find`
takes `&self` and performs no writes (no path compression), so it cannot
change any group; repeating it returns the same representative, and the
representative is a fixed point: `find` of the result returns the result
itself. -/
theorem find_idempotent {T : Type} [DecidableEq T] {ds : DisjointSet T} {k r : T}
    (h : DisjointSet.find ds k = some r) :
    DisjointSet.find ds k = some r ∧ DisjointSet.find ds r = some r :=
  ⟨h, DisjointSet.find_of_top (DisjointSet.find_lookup_top h)⟩

/-- C6 counterexample: the claim fails when `a` and `b` already share a
representative.  On the single-key table `{0 ↦ Top}` (a valid forest with
`0` registered), `union 0 0` installs the self-pointer `0 ↦ Ptr 0`; the
subsequent `find 0` never returns (modelled by `none`), so it does not
return the prior representative `0`. -/
theorem union_same_root_counterexample :
    DisjointSet.find [((0 : Nat), DSPtr.Top)] 0 = some 0 ∧
    DisjointSet.union [((0 : Nat), DSPtr.Top)] 0 0 =
      some [(0, DSPtr.Ptr 0), (0, DSPtr.Top)] ∧
    DisjointSet.find [((0 : Nat), DSPtr.Ptr 0), (0, DSPtr.Top)] 0 = none ∧
    ¬ (DisjointSet.find [((0 : Nat), DSPtr.Ptr 0), (0, DSPtr.Top)] 0 = some 0) := by
  refine ⟨rfl, rfl, rfl, ?_⟩
  intro h
  cases h

/-- C6 (amended): if `a` and `b` are registered with **distinct**
representatives `ra ≠ rb`, then `union a b` completes and afterwards both
`find a` and `find b` return `rb`, the representative `find b` returned
before the union (`a`'s tree is grafted under `b`'s root).  Without the
distinctness hypothesis the claim is false: `union` then installs a
self-pointer at the shared root and `find` no longer returns (see the
counterexample). -/
theorem union_find_eq {T : Type} [DecidableEq T] {ds : DisjointSet T} {a b ra rb : T}
    (ha : DisjointSet.find ds a = some ra) (hb : DisjointSet.find ds b = some rb)
    (hne : ra ≠ rb) :
    ∃ ds2, DisjointSet.union ds a b = some ds2 ∧
      DisjointSet.find ds2 a = some rb ∧ DisjointSet.find ds2 b = some rb := by
  have hraT := DisjointSet.find_lookup_top ha
  have hrbT := DisjointSet.find_lookup_top hb
  refine ⟨(ra, DSPtr.Ptr rb) :: ds, ?_, ?_, ?_⟩
  · unfold DisjointSet.union
    rw [ha, hb]
  · have := DisjointSet.find_graft hraT hrbT hne.symm ha
    simpa using this
  · have := DisjointSet.find_graft hraT hrbT hne.symm hb
    simpa [if_neg hne.symm] using this

/-! ### Concrete instances used by the witnesses -/

/-- A concrete 2×2×1×1 generation run: the shuffled order is taken to be
the enumeration order itself (a permutation of itself). -/
def edges2 : List MazeEdge := enumEdges 2 2 1 1

theorem gen2_isSome : (generateMaze edges2 (initialWorld 2 2 1 1)).isSome = true := by
  decide

/-- The world produced by the concrete 2×2×1×1 generation run. -/
def wld2 : World := (generateMaze edges2 (initialWorld 2 2 1 1)).get gen2_isSome

theorem gen2_eq : generateMaze edges2 (initialWorld 2 2 1 1) = some wld2 :=
  (Option.some_get gen2_isSome).symm

/-- A valid single-key forest used by the DisjointSet witnesses. -/
theorem validForest_single : DisjointSet.ValidForest [((0 : Nat), DSPtr.Top)] := by
  intro k h
  have hk : k = 0 := by
    by_contra hk
    simp [DisjointSet.lookup, hk] at h
  subst hk
  exact ⟨0, 0, DisjointSet.FindRelN.top rfl⟩

/-- Witness for C4 on the generated 2×2×1×1 maze: the opening between
cells `(0,0,0,0)` and `(1,0,0,0)` is passable in both directions. -/
theorem check_move_symm_witness :
    checkMove wld2 (addDelta (0, 0, 0, 0) (1, 0, 0, 0)) (negDelta (1, 0, 0, 0)) = some true :=
  check_move_symm wld2 (0, 0, 0, 0) (1, 0, 0, 0) (by decide) (by decide) (by decide) (by decide)

/-- Witness for C5: the non-unit delta `[2,0,0,0]` yields `false`. -/
theorem check_move_nonunit_false_witness :
    checkMove (initialWorld 2 2 2 2) (0, 0, 0, 0) (2, 0, 0, 0) = some false :=
  check_move_nonunit_false (initialWorld 2 2 2 2) (0, 0, 0, 0) (2, 0, 0, 0) (by decide)

/-- Witness for C10: from the in-bounds cell `(1,1,1,1)` of a 2×2×2×2
grid even the decrement deltas return a boolean. -/
theorem check_move_total_witness :
    (checkMove (initialWorld 2 2 2 2) (1, 1, 1, 1) (0, 0, 0, -1)).isSome :=
  check_move_total (initialWorld 2 2 2 2) (1, 1, 1, 1) (by decide) (0, 0, 0, -1)

/-- Witness for C7: on the table `{0 ↦ Top}`, `find 1` panics and
`find 0` returns the fixed point `0`. -/
theorem find_contract_witness :
    DisjointSet.find [((0 : Nat), DSPtr.Top)] 1 = none ∧
    ∃ r, DisjointSet.find [((0 : Nat), DSPtr.Top)] 0 = some r ∧
      DisjointSet.FindRel [((0 : Nat), DSPtr.Top)] 0 r ∧
      DisjointSet.lookup [((0 : Nat), DSPtr.Top)] r = some DSPtr.Top :=
  ⟨(find_contract [((0 : Nat), DSPtr.Top)] 1).1 rfl,
   (find_contract [((0 : Nat), DSPtr.Top)] 0).2 validForest_single (by decide)⟩

/-- Witness for C8 on the table `{0 ↦ Top}`. -/
theorem find_idempotent_witness :
    DisjointSet.find [((0 : Nat), DSPtr.Top)] 0 = some 0 ∧
    DisjointSet.find [((0 : Nat), DSPtr.Top)] (0 : Nat) = some 0 :=
  @find_idempotent Nat _ [((0 : Nat), DSPtr.Top)] 0 0 rfl

/-- Witness for the amended C6 on the table `{0 ↦ Top, 1 ↦ Top}`
(built by `add 0; add 1`): after `union 0 1` both finds return `1`. -/
theorem union_find_eq_witness :
    ∃ ds2, DisjointSet.union [((1 : Nat), DSPtr.Top), (0, DSPtr.Top)] 0 1 = some ds2 ∧
      DisjointSet.find ds2 0 = some 1 ∧ DisjointSet.find ds2 1 = some 1 :=
  @union_find_eq Nat _ [((1 : Nat), DSPtr.Top), (0, DSPtr.Top)] 0 1 0 1 rfl rfl (by decide)

/-! ### The grid graph and the claims' connectivity notions -/

/-- The set of in-bounds cells of a `width × height × depth × fourth` grid. -/
def cellsF (width height depth fourth : Nat) : Finset Coordinate :=
  Finset.range width ×ˢ Finset.range height ×ˢ Finset.range depth ×ˢ Finset.range fourth

theorem mem_cellsF {W H D F : Nat} {c : Coordinate} :
    c ∈ cellsF W H D F ↔ c.1 < W ∧ c.2.1 < H ∧ c.2.2.1 < D ∧ c.2.2.2 < F := by
  obtain ⟨x, y, z, w⟩ := c
  simp [cellsF, Finset.mem_product]

theorem card_cellsF (W H D F : Nat) : (cellsF W H D F).card = W * H * D * F := by
  simp [cellsF, Finset.card_product, Finset.card_range, Nat.mul_assoc]

/-- An in-bounds cell of a world's grid. -/
def inBoundsN (wld : World) (c : Coordinate) : Prop :=
  c.1 < wld.width ∧ c.2.1 < wld.height ∧ c.2.2.1 < wld.depth ∧ c.2.2.2 < wld.fourth

instance (wld : World) (c : Coordinate) : Decidable (inBoundsN wld c) := by
  unfold inBoundsN; infer_instance

/-- Two in-bounds cells differing by one unit step whose separating wall
entry is `NoWall` (the wall between x-neighbors `x` and `x + 1` is
`xwalls[w][z][y][x+1]`, and so on per axis). -/
def noWallAdj (wld : World) (a b : Coordinate) : Prop :=
  inBoundsN wld a ∧ inBoundsN wld b ∧
  ((a.2.1 = b.2.1 ∧ a.2.2.1 = b.2.2.1 ∧ a.2.2.2 = b.2.2.2 ∧
      ((b.1 = a.1 + 1 ∧ wld.xwalls a.2.2.2 a.2.2.1 a.2.1 b.1 = Wall.NoWall) ∨
       (a.1 = b.1 + 1 ∧ wld.xwalls a.2.2.2 a.2.2.1 a.2.1 a.1 = Wall.NoWall))) ∨
   (a.1 = b.1 ∧ a.2.2.1 = b.2.2.1 ∧ a.2.2.2 = b.2.2.2 ∧
      ((b.2.1 = a.2.1 + 1 ∧ wld.ywalls a.2.2.2 a.2.2.1 b.2.1 a.1 = Wall.NoWall) ∨
       (a.2.1 = b.2.1 + 1 ∧ wld.ywalls a.2.2.2 a.2.2.1 a.2.1 a.1 = Wall.NoWall))) ∨
   (a.1 = b.1 ∧ a.2.1 = b.2.1 ∧ a.2.2.2 = b.2.2.2 ∧
      ((b.2.2.1 = a.2.2.1 + 1 ∧ wld.zwalls a.2.2.2 b.2.2.1 a.2.1 a.1 = Wall.NoWall) ∨
       (a.2.2.1 = b.2.2.1 + 1 ∧ wld.zwalls a.2.2.2 a.2.2.1 a.2.1 a.1 = Wall.NoWall))) ∨
   (a.1 = b.1 ∧ a.2.1 = b.2.1 ∧ a.2.2.1 = b.2.2.1 ∧
      ((b.2.2.2 = a.2.2.2 + 1 ∧ wld.wwalls b.2.2.2 a.2.2.1 a.2.1 a.1 = Wall.NoWall) ∨
       (a.2.2.2 = b.2.2.2 + 1 ∧ wld.wwalls a.2.2.2 a.2.2.1 a.2.1 a.1 = Wall.NoWall))))

/-- Reachability through `NoWall` boundaries between in-bounds cells. -/
def Reachable (wld : World) : Coordinate → Coordinate → Prop :=
  Relation.ReflTransGen (noWallAdj wld)

/-- The constraints satisfied by exactly the enumerated candidate edges. -/
def edgeOK (W H D F : Nat) : MazeEdge → Prop
  | MazeEdge.XWall (x, y, z, w) => x ≠ 0 ∧ x < W ∧ y < H ∧ z < D ∧ w < F
  | MazeEdge.YWall (x, y, z, w) => y ≠ 0 ∧ x < W ∧ y < H ∧ z < D ∧ w < F
  | MazeEdge.ZWall (x, y, z, w) => z ≠ 0 ∧ x < W ∧ y < H ∧ z < D ∧ w < F
  | MazeEdge.WWall (x, y, z, w) => w ≠ 0 ∧ x < W ∧ y < H ∧ z < D ∧ w < F

theorem mem_singleton_ite {α : Type} {p : Prop} [Decidable p] {a b : α} :
    a ∈ (if p then [b] else []) ↔ p ∧ a = b := by
  split_ifs with h <;> simp [h]

theorem mem_blockEdges {x y z w : Nat} {e : MazeEdge} :
    e ∈ blockEdges x y z w ↔
      ((x ≠ 0 ∧ e = MazeEdge.XWall (x, y, z, w)) ∨
       (y ≠ 0 ∧ e = MazeEdge.YWall (x, y, z, w)) ∨
       (z ≠ 0 ∧ e = MazeEdge.ZWall (x, y, z, w)) ∨
       (w ≠ 0 ∧ e = MazeEdge.WWall (x, y, z, w))) := by
  simp only [blockEdges, List.mem_append, mem_singleton_ite]
  tauto

theorem mem_enumEdges {W H D F : Nat} {e : MazeEdge} :
    e ∈ enumEdges W H D F ↔ edgeOK W H D F e := by
  unfold enumEdges
  simp only [List.mem_flatMap, List.mem_range, mem_blockEdges]
  constructor
  · rintro ⟨w, hw, z, hz, y, hy, x, hx, hcase⟩
    rcases hcase with ⟨hne, rfl⟩ | ⟨hne, rfl⟩ | ⟨hne, rfl⟩ | ⟨hne, rfl⟩ <;>
      exact ⟨hne, hx, hy, hz, hw⟩
  · intro hok
    cases e with
    | XWall c =>
      obtain ⟨x, y, z, w⟩ := c
      obtain ⟨hne, hx, hy, hz, hw⟩ := hok
      exact ⟨w, hw, z, hz, y, hy, x, hx, Or.inl ⟨hne, rfl⟩⟩
    | YWall c =>
      obtain ⟨x, y, z, w⟩ := c
      obtain ⟨hne, hx, hy, hz, hw⟩ := hok
      exact ⟨w, hw, z, hz, y, hy, x, hx, Or.inr (Or.inl ⟨hne, rfl⟩)⟩
    | ZWall c =>
      obtain ⟨x, y, z, w⟩ := c
      obtain ⟨hne, hx, hy, hz, hw⟩ := hok
      exact ⟨w, hw, z, hz, y, hy, x, hx, Or.inr (Or.inr (Or.inl ⟨hne, rfl⟩))⟩
    | WWall c =>
      obtain ⟨x, y, z, w⟩ := c
      obtain ⟨hne, hx, hy, hz, hw⟩ := hok
      exact ⟨w, hw, z, hz, y, hy, x, hx, Or.inr (Or.inr (Or.inr ⟨hne, rfl⟩))⟩

theorem cellPair_fst_mem {W H D F : Nat} {e : MazeEdge} (h : edgeOK W H D F e) :
    (cellPair e).1 ∈ cellsF W H D F := by
  cases e with
  | XWall c | YWall c | ZWall c | WWall c =>
    obtain ⟨x, y, z, w⟩ := c
    obtain ⟨hne, hx, hy, hz, hw⟩ := h
    simp only [cellPair, mem_cellsF]
    refine ⟨by omega, by omega, by omega, by omega⟩

theorem cellPair_snd_mem {W H D F : Nat} {e : MazeEdge} (h : edgeOK W H D F e) :
    (cellPair e).2 ∈ cellsF W H D F := by
  cases e with
  | XWall c | YWall c | ZWall c | WWall c =>
    obtain ⟨x, y, z, w⟩ := c
    obtain ⟨hne, hx, hy, hz, hw⟩ := h
    simp only [cellPair, mem_cellsF]
    refine ⟨by omega, by omega, by omega, by omega⟩

theorem cellPair_ne {W H D F : Nat} {e : MazeEdge} (h : edgeOK W H D F e) :
    (cellPair e).1 ≠ (cellPair e).2 := by
  cases e with
  | XWall c | YWall c | ZWall c | WWall c =>
    obtain ⟨x, y, z, w⟩ := c
    obtain ⟨hne, -, -, -, -⟩ := h
    simp only [cellPair, ne_eq, Prod.mk.injEq, not_and]
    intro h1
    omega

/-! ### Properties of the initial disjoint set and of carving -/

theorem mem_allCellsList {W H D F : Nat} {c : Coordinate} :
    c ∈ allCellsList W H D F ↔ c ∈ cellsF W H D F := by
  obtain ⟨x, y, z, w⟩ := c
  simp only [allCellsList, List.mem_flatMap, List.mem_range, List.mem_map, mem_cellsF]
  constructor
  · rintro ⟨w', hw, z', hz, y', hy, x', hx, heq⟩
    cases heq
    exact ⟨hx, hy, hz, hw⟩
  · rintro ⟨hx, hy, hz, hw⟩
    exact ⟨w, hw, z, hz, y, hy, x, hx, rfl⟩

theorem lookup_foldl_add {T : Type} [DecidableEq T] (l : List T) (ds : DisjointSet T) (c : T) :
    DisjointSet.lookup (l.foldl DisjointSet.add ds) c =
      if c ∈ l then some DSPtr.Top else DisjointSet.lookup ds c := by
  induction l generalizing ds with
  | nil => simp
  | cons a l ih =>
    simp only [List.foldl_cons, ih, DisjointSet.add, DisjointSet.lookup_cons, List.mem_cons]
    by_cases hl : c ∈ l
    · simp [hl]
    · by_cases hc : c = a <;> simp [hl, hc]

theorem length_foldl_add {T : Type} [DecidableEq T] (l : List T) (ds : DisjointSet T) :
    (l.foldl DisjointSet.add ds).length = l.length + ds.length := by
  induction l generalizing ds with
  | nil => simp
  | cons a l ih => simp [DisjointSet.add, ih]; omega

theorem edgeWall_carve_self (st : KState) (e : MazeEdge) :
    edgeWall (carveEdge st e) e = Wall.NoWall := by
  cases e with
  | XWall c | YWall c | ZWall c | WWall c =>
    obtain ⟨x, y, z, w⟩ := c
    simp [carveEdge, edgeWall, upd4]

theorem edgeWall_carve_other {e e2 : MazeEdge} (st : KState) (hne : e2 ≠ e) :
    edgeWall (carveEdge st e) e2 = edgeWall st e2 := by
  cases e with
  | XWall c | YWall c | ZWall c | WWall c =>
    obtain ⟨x, y, z, w⟩ := c
    cases e2 with
    | XWall c2 | YWall c2 | ZWall c2 | WWall c2 =>
      obtain ⟨x2, y2, z2, w2⟩ := c2
      first
        | (simp only [carveEdge, edgeWall, upd4]; done)
        | (simp only [carveEdge, edgeWall, upd4]
           split_ifs with hcond
           · exfalso
             obtain ⟨h1, h2, h3, h4⟩ := hcond
             subst h1; subst h2; subst h3; subst h4
             exact hne rfl
           · rfl)

theorem carve_ds (st : KState) (e : MazeEdge) : (carveEdge st e).ds = st.ds := by
  cases e with
  | XWall c | YWall c | ZWall c | WWall c => obtain ⟨x, y, z, w⟩ := c; rfl

theorem carve_nbrs (st : KState) (e : MazeEdge) : (carveEdge st e).nbrs = st.nbrs := by
  cases e with
  | XWall c | YWall c | ZWall c | WWall c => obtain ⟨x, y, z, w⟩ := c; rfl

/-- Adjacency of two cells through a carved candidate edge. -/
def adjCE (W H D F : Nat) (st : KState) (a b : Coordinate) : Prop :=
  ∃ e ∈ enumEdges W H D F, edgeWall st e = Wall.NoWall ∧
    (cellPair e = (a, b) ∨ cellPair e = (b, a))

theorem adjCE_symm {W H D F : Nat} {st : KState} {a b : Coordinate}
    (h : adjCE W H D F st a b) : adjCE W H D F st b a := by
  obtain ⟨e, he, hw, hp⟩ := h
  exact ⟨e, he, hw, hp.symm⟩

/-- All outer-boundary wall entries (bounded-axis index `0` or the axis
dimension) are solid. -/
def OuterSolid (W H D F : Nat) (st : KState) : Prop :=
  (∀ w z y x, x = 0 ∨ x = W → st.xw w z y x = Wall.SolidWall) ∧
  (∀ w z y x, y = 0 ∨ y = H → st.yw w z y x = Wall.SolidWall) ∧
  (∀ w z y x, z = 0 ∨ z = D → st.zw w z y x = Wall.SolidWall) ∧
  (∀ w z y x, w = 0 ∨ w = F → st.ww w z y x = Wall.SolidWall)

/-! ### Nodup of the edge enumeration, counting, and image cardinality -/

/-- The coordinate stored in a candidate edge. -/
def edgeCoord : MazeEdge → Coordinate
  | MazeEdge.XWall c => c
  | MazeEdge.YWall c => c
  | MazeEdge.ZWall c => c
  | MazeEdge.WWall c => c

theorem edgeCoord_of_mem_blockEdges {x y z w : Nat} {e : MazeEdge}
    (h : e ∈ blockEdges x y z w) : edgeCoord e = (x, y, z, w) := by
  rcases mem_blockEdges.mp h with ⟨-, rfl⟩ | ⟨-, rfl⟩ | ⟨-, rfl⟩ | ⟨-, rfl⟩ <;> rfl

theorem blockEdges_nodup (x y z w : Nat) : (blockEdges x y z w).Nodup := by
  by_cases hx : x = 0 <;> by_cases hy : y = 0 <;> by_cases hz : z = 0 <;>
    by_cases hw : w = 0 <;> simp [blockEdges, hx, hy, hz, hw]

theorem enumEdges_nodup (W H D F : Nat) : (enumEdges W H D F).Nodup := by
  unfold enumEdges
  rw [List.nodup_flatMap]
  refine ⟨fun w _ => ?_, ?_⟩
  · rw [List.nodup_flatMap]
    refine ⟨fun z _ => ?_, ?_⟩
    · rw [List.nodup_flatMap]
      refine ⟨fun y _ => ?_, ?_⟩
      · rw [List.nodup_flatMap]
        refine ⟨fun x _ => blockEdges_nodup x y z w, ?_⟩
        refine List.Pairwise.imp ?_ (List.pairwise_lt_range W)
        intro x x' hlt e he he'
        have h1 := edgeCoord_of_mem_blockEdges he
        have h2 := edgeCoord_of_mem_blockEdges he'
        rw [h1] at h2
        cases h2
        omega
      · refine List.Pairwise.imp ?_ (List.pairwise_lt_range H)
        intro y y' hlt e he he'
        simp only [List.mem_flatMap, List.mem_range] at he he'
        obtain ⟨x, -, hx⟩ := he
        obtain ⟨x', -, hx'⟩ := he'
        have h1 := edgeCoord_of_mem_blockEdges hx
        have h2 := edgeCoord_of_mem_blockEdges hx'
        rw [h1] at h2
        cases h2
        omega
    · refine List.Pairwise.imp ?_ (List.pairwise_lt_range D)
      intro z z' hlt e he he'
      simp only [List.mem_flatMap, List.mem_range] at he he'
      obtain ⟨y, -, x, -, hx⟩ := he
      obtain ⟨y', -, x', -, hx'⟩ := he'
      have h1 := edgeCoord_of_mem_blockEdges hx
      have h2 := edgeCoord_of_mem_blockEdges hx'
      rw [h1] at h2
      cases h2
      omega
  · refine List.Pairwise.imp ?_ (List.pairwise_lt_range F)
    intro w w' hlt e he he'
    simp only [List.mem_flatMap, List.mem_range] at he he'
    obtain ⟨z, -, y, -, x, -, hx⟩ := he
    obtain ⟨z', -, y', -, x', -, hx'⟩ := he'
    have h1 := edgeCoord_of_mem_blockEdges hx
    have h2 := edgeCoord_of_mem_blockEdges hx'
    rw [h1] at h2
    cases h2
    omega

/-- Flipping one list entry's predicate value from `false` to `true`
increases `countP` by one. -/
theorem countP_change {α : Type} {l : List α} {p q : α → Bool} {a : α}
    (hnd : l.Nodup) (ha : a ∈ l) (hpa : p a = false) (hqa : q a = true)
    (hsame : ∀ x ∈ l, x ≠ a → q x = p x) :
    l.countP q = l.countP p + 1 := by
  induction l with
  | nil => cases ha
  | cons b l ih =>
    rw [List.nodup_cons] at hnd
    rw [List.countP_cons, List.countP_cons]
    rcases List.mem_cons.mp ha with rfl | ha'
    · have hcong : l.countP q = l.countP p := by
        apply List.countP_congr
        intro x hx
        rw [hsame x (List.mem_cons_of_mem _ hx) (fun hxa => hnd.1 (hxa ▸ hx))]
      rw [hcong, hpa, hqa]
      simp
    · have hba : b ≠ a := fun h => hnd.1 (h ▸ ha')
      have hqb : q b = p b := hsame b (List.mem_cons_self b l) hba
      rw [ih hnd.2 ha' (fun x hx => hsame x (List.mem_cons_of_mem _ hx)), hqb]
      omega

/-- Merging the image value `a` into `b` drops the image cardinality by
exactly one. -/
theorem image_merge_card {α : Type} [DecidableEq α] {s : Finset α} {a b : α}
    (ha : a ∈ s) (hb : b ∈ s) (hab : a ≠ b) :
    (s.image (fun r => if r = a then b else r)).card + 1 = s.card := by
  have himg : s.image (fun r => if r = a then b else r) = s.erase a := by
    ext x
    simp only [Finset.mem_image, Finset.mem_erase]
    constructor
    · rintro ⟨y, hy, rfl⟩
      by_cases hya : y = a
      · simp only [if_pos hya]
        exact ⟨hab.symm, hb⟩
      · simp only [if_neg hya]
        exact ⟨hya, hy⟩
    · rintro ⟨hxa, hxs⟩
      exact ⟨x, hxs, if_neg hxa⟩
  rw [himg, Finset.card_erase_of_mem ha]
  have hpos : 0 < s.card := Finset.card_pos.mpr ⟨a, ha⟩
  omega

/-- Carving an enumerated (internal) edge never touches an outer wall
entry. -/
theorem outer_carve {W H D F : Nat} {st : KState} (ho : OuterSolid W H D F st)
    {e : MazeEdge} (hok : edgeOK W H D F e) : OuterSolid W H D F (carveEdge st e) := by
  obtain ⟨hx, hy, hz, hw⟩ := ho
  cases e with
  | XWall c =>
    obtain ⟨x, y, z, w⟩ := c
    obtain ⟨hne, hxW, -, -, -⟩ := hok
    refine ⟨?_, hy, hz, hw⟩
    intro w' z' y' x' hx'
    simp only [carveEdge, upd4]
    rw [if_neg]
    · exact hx w' z' y' x' hx'
    · rintro ⟨-, -, -, rfl⟩
      omega
  | YWall c =>
    obtain ⟨x, y, z, w⟩ := c
    obtain ⟨hne, -, hyH, -, -⟩ := hok
    refine ⟨hx, ?_, hz, hw⟩
    intro w' z' y' x' hy'
    simp only [carveEdge, upd4]
    rw [if_neg]
    · exact hy w' z' y' x' hy'
    · rintro ⟨-, -, rfl, -⟩
      omega
  | ZWall c =>
    obtain ⟨x, y, z, w⟩ := c
    obtain ⟨hne, -, -, hzD, -⟩ := hok
    refine ⟨hx, hy, ?_, hw⟩
    intro w' z' y' x' hz'
    simp only [carveEdge, upd4]
    rw [if_neg]
    · exact hz w' z' y' x' hz'
    · rintro ⟨-, rfl, -, -⟩
      omega
  | WWall c =>
    obtain ⟨x, y, z, w⟩ := c
    obtain ⟨hne, -, -, -, hwF⟩ := hok
    refine ⟨hx, hy, hz, ?_⟩
    intro w' z' y' x' hw'
    simp only [carveEdge, upd4]
    rw [if_neg]
    · exact hw w' z' y' x' hw'
    · rintro ⟨rfl, -, -, -⟩
      omega

/-! ### The Kruskal loop invariant -/

/-- Invariant of the Kruskal loop.  `rep` abstracts the disjoint set
(every registered cell's `find` returns `rep c` within fuel bounded by the
table length), `u` counts the unions performed so far; the equivalence
classes of `rep` coincide with the connectivity components of the carved
edges, the carved-edge count equals `u`, the class count is `n - u`, and
outer walls are untouched.  `nbrs` records exactly the carved edges. -/
structure KInv (W H D F : Nat) (st : KState) (rep : Coordinate → Coordinate) (u : Nat) :
    Prop where
  depth_lt : ∀ c ∈ cellsF W H D F, ∃ h, h < st.ds.length ∧
      DisjointSet.findFuel (h + 1) st.ds c = some (rep c)
  root_top : ∀ c ∈ cellsF W H D F, DisjointSet.lookup st.ds (rep c) = some DSPtr.Top
  reach : ∀ a ∈ cellsF W H D F, ∀ b ∈ cellsF W H D F, rep a = rep b →
      Relation.ReflTransGen (adjCE W H D F st) a b
  wall_rep : ∀ e ∈ enumEdges W H D F, edgeWall st e = Wall.NoWall →
      rep (cellPair e).1 = rep (cellPair e).2
  count : (enumEdges W H D F).countP (fun e => decide (edgeWall st e = Wall.NoWall)) = u
  img : ((cellsF W H D F).image rep).card + u = (cellsF W H D F).card
  outer : OuterSolid W H D F st
  nbr_iff : ∀ a b, b ∈ st.nbrs a ↔ adjCE W H D F st a b

theorem KInv.find_eq {W H D F : Nat} {st : KState} {rep : Coordinate → Coordinate}
    {u : Nat} (inv : KInv W H D F st rep u) {c : Coordinate} (hc : c ∈ cellsF W H D F) :
    DisjointSet.find st.ds c = some (rep c) := by
  obtain ⟨h, hlt, hff⟩ := inv.depth_lt c hc
  exact DisjointSet.findFuel_mono hff (by omega)

/-- The walls of the state built in the carve branch of `kruskalStep`. -/
theorem edgeWall_override (st : KState) (e e2 : MazeEdge)
    (ds2 : DisjointSet Coordinate) (nbrs2 : Coordinate → List Coordinate) :
    edgeWall { carveEdge st e with ds := ds2, nbrs := nbrs2 } e2 =
      edgeWall (carveEdge st e) e2 := by
  cases e with
  | XWall c | YWall c | ZWall c | WWall c =>
    obtain ⟨x, y, z, w⟩ := c
    cases e2 with
    | XWall c2 | YWall c2 | ZWall c2 | WWall c2 =>
      obtain ⟨x2, y2, z2, w2⟩ := c2
      rfl

set_option maxHeartbeats 1600000 in
/-- Preservation of the Kruskal invariant across one loop iteration: the
iteration completes, and afterwards the edge's two cells share a
representative; representatives only ever merge. -/
theorem kruskalStep_inv {W H D F : Nat} {st : KState} {rep : Coordinate → Coordinate}
    {u : Nat} (inv : KInv W H D F st rep u) {e : MazeEdge} (he : e ∈ enumEdges W H D F) :
    ∃ st2 rep2 u2, kruskalStep st e = some st2 ∧ KInv W H D F st2 rep2 u2 ∧
      rep2 (cellPair e).1 = rep2 (cellPair e).2 ∧
      (∀ a b : Coordinate, rep a = rep b → rep2 a = rep2 b) := by
  have hok := mem_enumEdges.mp he
  have hcA : (cellPair e).1 ∈ cellsF W H D F := cellPair_fst_mem hok
  have hcB : (cellPair e).2 ∈ cellsF W H D F := cellPair_snd_mem hok
  have hfA : DisjointSet.find st.ds (cellPair e).1 = some (rep (cellPair e).1) :=
    inv.find_eq hcA
  have hfB : DisjointSet.find st.ds (cellPair e).2 = some (rep (cellPair e).2) :=
    inv.find_eq hcB
  by_cases heq : rep (cellPair e).1 = rep (cellPair e).2
  · refine ⟨st, rep, u, ?_, inv, heq, fun a b h => h⟩
    simp [kruskalStep, hfA, hfB, heq]
  · -- the union branch
    have hAtop : DisjointSet.lookup st.ds (rep (cellPair e).1) = some DSPtr.Top :=
      inv.root_top _ hcA
    have hBtop : DisjointSet.lookup st.ds (rep (cellPair e).2) = some DSPtr.Top :=
      inv.root_top _ hcB
    have hne' : rep (cellPair e).2 ≠ rep (cellPair e).1 := fun h => heq h.symm
    have huA : DisjointSet.find st.ds (rep (cellPair e).1) = some (rep (cellPair e).1) :=
      DisjointSet.find_of_top hAtop
    have huB : DisjointSet.find st.ds (rep (cellPair e).2) = some (rep (cellPair e).2) :=
      DisjointSet.find_of_top hBtop
    have hunion : DisjointSet.union st.ds (rep (cellPair e).1) (rep (cellPair e).2) =
        some ((rep (cellPair e).1, DSPtr.Ptr (rep (cellPair e).2)) :: st.ds) := by
      unfold DisjointSet.union
      rw [huA, huB]
    have hstep : kruskalStep st e =
        some { carveEdge st e with
                 ds := (rep (cellPair e).1, DSPtr.Ptr (rep (cellPair e).2)) :: st.ds
                 nbrs := pushNbr (pushNbr st.nbrs (cellPair e).1 (cellPair e).2)
                   (cellPair e).2 (cellPair e).1 } := by
      simp only [kruskalStep, hfA, hfB, ne_eq, heq, not_false_eq_true, if_true,
        ite_true, hunion]
    set cA := (cellPair e).1 with hcAdef
    set cB := (cellPair e).2 with hcBdef
    set ds2 : DisjointSet Coordinate := (cA, DSPtr.Ptr (rep cB)) :: st.ds with hds2
    set st2 : KState :=
      { carveEdge st e with
          ds := (rep cA, DSPtr.Ptr (rep cB)) :: st.ds
          nbrs := pushNbr (pushNbr st.nbrs cA cB) cB cA } with hst2
    set rep2 : Coordinate → Coordinate :=
      fun c => if rep c = rep cA then rep cB else rep c with hrep2
    have hcAB : cA ≠ cB := cellPair_ne hok
    -- walls of the new state
    have hw2 : ∀ e2, edgeWall st2 e2 = edgeWall (carveEdge st e) e2 := by
      intro e2
      exact edgeWall_override st e e2 _ _
    have hwself : edgeWall st2 e = Wall.NoWall := by
      rw [hw2]; exact edgeWall_carve_self st e
    have hwother : ∀ e2, e2 ≠ e → edgeWall st2 e2 = edgeWall st e2 := by
      intro e2 hne2
      rw [hw2]; exact edgeWall_carve_other st hne2
    have hwmono : ∀ e2, edgeWall st e2 = Wall.NoWall → edgeWall st2 e2 = Wall.NoWall := by
      intro e2 h
      by_cases he2 : e2 = e
      · rw [he2]; exact hwself
      · rw [hwother e2 he2]; exact h
    -- adjacency lemmas
    have hadjmono : ∀ a b, adjCE W H D F st a b → adjCE W H D F st2 a b := by
      rintro a b ⟨e2, he2, hwall, hp⟩
      exact ⟨e2, he2, hwmono e2 hwall, hp⟩
    have hreachmono : ∀ a b, Relation.ReflTransGen (adjCE W H D F st) a b →
        Relation.ReflTransGen (adjCE W H D F st2) a b := by
      intro a b h
      exact Relation.ReflTransGen.mono hadjmono h
    have hadjnew : adjCE W H D F st2 cA cB :=
      ⟨e, he, hwself, Or.inl rfl⟩
    -- the new representatives
    have hrep2A : rep2 cA = rep cB := by
      rw [hrep2]; simp
    have hrep2B : rep2 cB = rep cB := by
      rw [hrep2]; simp [hne']
    have hrep2mono : ∀ a b : Coordinate, rep a = rep b → rep2 a = rep2 b := by
      intro a b h
      rw [hrep2]
      simp only [h]
    refine ⟨st2, rep2, u + 1, hstep, ?_, by rw [hrep2A, hrep2B], hrep2mono⟩
    refine { depth_lt := ?_, root_top := ?_, reach := ?_, wall_rep := ?_,
             count := ?_, img := ?_, outer := ?_, nbr_iff := ?_ }
    ·
      intro c hc
      obtain ⟨h, hlt, hff⟩ := inv.depth_lt c hc
      refine ⟨h + 1, by simp [hst2]; omega, ?_⟩
      have := DisjointSet.findFuel_graft hAtop hBtop hne' hff
      exact this
    ·
      intro c hc
      rw [hrep2]
      simp only
      by_cases hcase : rep c = rep cA
      · rw [if_pos hcase]
        show DisjointSet.lookup ((rep cA, DSPtr.Ptr (rep cB)) :: st.ds) (rep cB) =
          some DSPtr.Top
        rw [DisjointSet.lookup_cons, if_neg hne']
        exact inv.root_top _ hcB
      · rw [if_neg hcase]
        show DisjointSet.lookup ((rep cA, DSPtr.Ptr (rep cB)) :: st.ds) (rep c) =
          some DSPtr.Top
        rw [DisjointSet.lookup_cons, if_neg hcase]
        exact inv.root_top _ hc
    ·
      intro a ha b hb hab
      rw [hrep2] at hab
      simp only at hab
      by_cases haA : rep a = rep cA <;> by_cases hbA : rep b = rep cA
      · exact hreachmono a b (inv.reach a ha b hb (haA.trans hbA.symm))
      · rw [if_pos haA, if_neg hbA] at hab
        have h1 : Relation.ReflTransGen (adjCE W H D F st2) a cA :=
          hreachmono _ _ (inv.reach a ha cA hcA haA)
        have h2 : Relation.ReflTransGen (adjCE W H D F st2) cB b :=
          hreachmono _ _ (inv.reach cB hcB b hb hab)
        exact (h1.trans (Relation.ReflTransGen.single hadjnew)).trans h2
      · rw [if_neg haA, if_pos hbA] at hab
        have h1 : Relation.ReflTransGen (adjCE W H D F st2) a cB :=
          hreachmono _ _ (inv.reach a ha cB hcB hab)
        have h2 : Relation.ReflTransGen (adjCE W H D F st2) cA b :=
          hreachmono _ _ (inv.reach cA hcA b hb hbA.symm)
        have hBA : adjCE W H D F st2 cB cA := adjCE_symm hadjnew
        exact (h1.trans (Relation.ReflTransGen.single hBA)).trans h2
      · rw [if_neg haA, if_neg hbA] at hab
        exact hreachmono a b (inv.reach a ha b hb hab)
    ·
      intro e2 he2 hwall
      by_cases hcase : e2 = e
      · rw [hcase]
        rw [hrep2A, hrep2B]
      · rw [hwother e2 hcase] at hwall
        exact hrep2mono _ _ (inv.wall_rep e2 he2 hwall)
    ·
      have := countP_change (p := fun e2 => decide (edgeWall st e2 = Wall.NoWall))
        (q := fun e2 => decide (edgeWall st2 e2 = Wall.NoWall))
        (enumEdges_nodup W H D F) he ?_ ?_ ?_
      · rw [this, inv.count]
      · -- the carved edge was solid before: otherwise its cells already
        -- shared a representative
        rcases hsolid : edgeWall st e with h | h
        · exact absurd (inv.wall_rep e he hsolid) heq
        · simp [hsolid]
      · simp [hwself]
      · intro e2 _ hne2
        simp [hwother e2 hne2]
    ·
      have himg : (cellsF W H D F).image rep2 =
          ((cellsF W H D F).image rep).image
            (fun r => if r = rep cA then rep cB else r) := by
        rw [Finset.image_image]
        rfl
      have hmemA : rep cA ∈ (cellsF W H D F).image rep :=
        Finset.mem_image_of_mem rep hcA
      have hmemB : rep cB ∈ (cellsF W H D F).image rep :=
        Finset.mem_image_of_mem rep hcB
      rw [himg]
      have hmerge : (((cellsF W H D F).image rep).image
          (fun r => if r = rep cA then rep cB else r)).card + 1 =
          ((cellsF W H D F).image rep).card := image_merge_card hmemA hmemB heq
      have himgold := inv.img
      omega
    ·
      have : OuterSolid W H D F (carveEdge st e) := outer_carve inv.outer hok
      obtain ⟨h1, h2, h3, h4⟩ := this
      exact ⟨h1, h2, h3, h4⟩
    ·
      intro a b
      have hmem : b ∈ st2.nbrs a ↔
          b ∈ st.nbrs a ∨ (a = cA ∧ b = cB) ∨ (a = cB ∧ b = cA) := by
        show b ∈ pushNbr (pushNbr st.nbrs cA cB) cB cA a ↔ _
        unfold pushNbr
        by_cases haB : a = cB <;> by_cases haA : a = cA
        · exact absurd (haA ▸ haB ▸ rfl : cA = cB) hcAB
        · simp only [if_pos haB, if_neg haA, List.mem_append, List.mem_singleton]
          tauto
        · simp only [if_neg haB, if_pos haA, List.mem_append, List.mem_singleton]
          tauto
        · simp only [if_neg haB, if_neg haA]
          tauto
      rw [hmem]
      constructor
      · rintro (hold | ⟨rfl, rfl⟩ | ⟨rfl, rfl⟩)
        · exact hadjmono _ _ ((inv.nbr_iff a b).mp hold)
        · exact hadjnew
        · exact adjCE_symm hadjnew
      · rintro ⟨e2, he2, hwall, hp⟩
        by_cases hcase : e2 = e
        · subst hcase
          rcases hp with hp | hp
          · right; left
            exact ⟨congrArg Prod.fst hp.symm, congrArg Prod.snd hp.symm⟩
          · right; right
            exact ⟨congrArg Prod.snd hp.symm, congrArg Prod.fst hp.symm⟩
        · left
          rw [hwother e2 hcase] at hwall
          exact (inv.nbr_iff a b).mpr ⟨e2, he2, hwall, hp⟩

/-- The state at the start of the Kruskal loop when generation begins from
the freshly built grid. -/
def kst0 (W H D F : Nat) : KState :=
  { xw := fun _ _ _ _ => Wall.SolidWall
    yw := fun _ _ _ _ => Wall.SolidWall
    zw := fun _ _ _ _ => Wall.SolidWall
    ww := fun _ _ _ _ => Wall.SolidWall
    ds := (allCellsList W H D F).foldl DisjointSet.add DisjointSet.new
    nbrs := fun _ => [] }

theorem kst0_inv (W H D F : Nat) : KInv W H D F (kst0 W H D F) id 0 := by
  have hlook : ∀ c : Coordinate, DisjointSet.lookup (kst0 W H D F).ds c =
      if c ∈ cellsF W H D F then some DSPtr.Top else none := by
    intro c
    show DisjointSet.lookup ((allCellsList W H D F).foldl DisjointSet.add DisjointSet.new) c = _
    rw [lookup_foldl_add]
    by_cases hc : c ∈ allCellsList W H D F
    · rw [if_pos hc, if_pos (mem_allCellsList.mp hc)]
    · rw [if_neg hc, if_neg (fun h => hc (mem_allCellsList.mpr h))]
      rfl
  have hwall : ∀ e : MazeEdge, edgeWall (kst0 W H D F) e = Wall.SolidWall := by
    intro e
    cases e with
    | XWall c | YWall c | ZWall c | WWall c => obtain ⟨x, y, z, w⟩ := c; rfl
  refine { depth_lt := ?_, root_top := ?_, reach := ?_, wall_rep := ?_,
           count := ?_, img := ?_, outer := ?_, nbr_iff := ?_ }
  · intro c hc
    refine ⟨0, ?_, ?_⟩
    · show 0 < ((allCellsList W H D F).foldl DisjointSet.add DisjointSet.new).length
      rw [length_foldl_add]
      have := List.length_pos_of_mem (mem_allCellsList.mpr hc)
      simpa [DisjointSet.new] using this
    · simp only [DisjointSet.findFuel, hlook c, if_pos hc, id]
  · intro c hc
    simp [hlook, hc]
  · intro a ha b hb hab
    simp only [id] at hab
    subst hab
    exact Relation.ReflTransGen.refl
  · intro e he hwall2
    rw [hwall e] at hwall2
    cases hwall2
  · rw [List.countP_eq_zero]
    intro e he
    simp [hwall e]
  · simp [Finset.image_id]
  · exact ⟨fun _ _ _ _ _ => rfl, fun _ _ _ _ _ => rfl, fun _ _ _ _ _ => rfl,
      fun _ _ _ _ _ => rfl⟩
  · intro a b
    constructor
    · intro h
      cases h
    · rintro ⟨e, he, hwall2, -⟩
      rw [hwall e] at hwall2
      cases hwall2

/-- Running the whole (shuffled) edge list from an invariant state
completes and preserves the invariant; afterwards every processed edge's
two cells share a representative. -/
theorem kruskalRun_inv {W H D F : Nat} :
    ∀ (edges : List MazeEdge) (st : KState) (rep : Coordinate → Coordinate) (u : Nat),
      KInv W H D F st rep u → (∀ e ∈ edges, e ∈ enumEdges W H D F) →
      ∃ st2 rep2 u2, kruskalRun st edges = some st2 ∧ KInv W H D F st2 rep2 u2 ∧
        (∀ e ∈ edges, rep2 (cellPair e).1 = rep2 (cellPair e).2) ∧
        (∀ a b : Coordinate, rep a = rep b → rep2 a = rep2 b) := by
  intro edges
  induction edges with
  | nil =>
    intro st rep u inv _
    exact ⟨st, rep, u, rfl, inv, by simp, fun a b h => h⟩
  | cons e es ih =>
    intro st rep u inv hsub
    obtain ⟨st1, rep1, u1, hstep, inv1, hedge1, hmono1⟩ :=
      kruskalStep_inv inv (hsub e (List.mem_cons_self e es))
    obtain ⟨st2, rep2, u2, hrun, inv2, hedges2, hmono2⟩ :=
      ih st1 rep1 u1 inv1 (fun e2 he2 => hsub e2 (List.mem_cons_of_mem _ he2))
    refine ⟨st2, rep2, u2, ?_, inv2, ?_, fun a b h => hmono2 a b (hmono1 a b h)⟩
    · show kruskalRun st (e :: es) = some st2
      unfold kruskalRun
      rw [hstep]
      exact hrun
    · intro e2 he2
      rcases List.mem_cons.mp he2 with rfl | he2'
      · exact hmono2 _ _ hedge1
      · exact hedges2 e2 he2'

/-- With every enumerated edge's endpoints identified, every cell shares
the origin's representative (walk any nonzero coordinate down to zero). -/
theorem rep_all_eq {W H D F : Nat} {rep : Coordinate → Coordinate}
    (hedge : ∀ e ∈ enumEdges W H D F, rep (cellPair e).1 = rep (cellPair e).2) :
    ∀ c ∈ cellsF W H D F, rep c = rep (0, 0, 0, 0) := by
  suffices h : ∀ s x y z w, x + y + z + w = s → x < W → y < H → z < D → w < F →
      rep (x, y, z, w) = rep (0, 0, 0, 0) by
    intro c hc
    obtain ⟨x, y, z, w⟩ := c
    rw [mem_cellsF] at hc
    exact h (x + y + z + w) x y z w rfl hc.1 hc.2.1 hc.2.2.1 hc.2.2.2
  intro s
  induction s using Nat.strong_induction_on with
  | _ s ih =>
    intro x y z w hsum hx hy hz hw
    by_cases hx0 : x = 0
    · by_cases hy0 : y = 0
      · by_cases hz0 : z = 0
        · by_cases hw0 : w = 0
          · subst hx0; subst hy0; subst hz0; subst hw0; rfl
          · have he : MazeEdge.WWall (x, y, z, w) ∈ enumEdges W H D F :=
              mem_enumEdges.mpr ⟨hw0, hx, hy, hz, hw⟩
            have hstep := hedge _ he
            simp only [cellPair] at hstep
            rw [← hstep]
            exact ih (x + y + z + (w - 1)) (by omega) x y z (w - 1) rfl hx hy hz (by omega)
        · have he : MazeEdge.ZWall (x, y, z, w) ∈ enumEdges W H D F :=
            mem_enumEdges.mpr ⟨hz0, hx, hy, hz, hw⟩
          have hstep := hedge _ he
          simp only [cellPair] at hstep
          rw [← hstep]
          exact ih (x + y + (z - 1) + w) (by omega) x y (z - 1) w rfl hx hy (by omega) hw
      · have he : MazeEdge.YWall (x, y, z, w) ∈ enumEdges W H D F :=
          mem_enumEdges.mpr ⟨hy0, hx, hy, hz, hw⟩
        have hstep := hedge _ he
        simp only [cellPair] at hstep
        rw [← hstep]
        exact ih (x + (y - 1) + z + w) (by omega) x (y - 1) z w rfl hx (by omega) hz hw
    · have he : MazeEdge.XWall (x, y, z, w) ∈ enumEdges W H D F :=
        mem_enumEdges.mpr ⟨hx0, hx, hy, hz, hw⟩
      have hstep := hedge _ he
      simp only [cellPair] at hstep
      rw [← hstep]
      exact ih ((x - 1) + y + z + w) (by omega) (x - 1) y z w rfl (by omega) hy hz hw

/-- The BFS start state of `generate_maze`. -/
def bfsInit : BState :=
  { vis := fun c => decide (c = ((0, 0, 0, 0) : Coordinate))
    queue := [(0, 0, 0, 0)]
    bt := fun _ => none }

/-- Unfolding `generate_maze` on the freshly built grid into its stages. -/
theorem generateMaze_eq (W H D F : Nat) (edges : List MazeEdge) :
    generateMaze edges (initialWorld W H D F) =
      match kruskalRun (kst0 W H D F) edges with
      | none => none
      | some st =>
        match bfsLoop st.nbrs (W * H * D * F + 1) bfsInit with
        | none => none
        | some bt =>
          match backtrackRun bt (0, 0, 0, 0) (W * H * D * F + 1)
              (W - 1, H - 1, D - 1, F - 1) [(W - 1, H - 1, D - 1, F - 1)] with
          | none => none
          | some sol =>
            some { initialWorld W H D F with
                     xwalls := upd4 st.xw (F - 1) (D - 1) (H - 1) W Wall.NoWall
                     ywalls := st.yw, zwalls := st.zw, wwalls := st.ww
                     solution := sol.reverse } := rfl

/-- Carved-edge adjacency transfers to `NoWall` adjacency of the final
world (the exit boundary sits at x-index `width`, beyond every internal
x-index, so the exit update leaves all internal entries unchanged). -/
theorem adjCE_noWallAdj {W H D F : Nat} {stF : KState} {wld : World}
    (hWw : wld.width = W) (hWh : wld.height = H) (hWd : wld.depth = D)
    (hWf : wld.fourth = F)
    (hx : wld.xwalls = upd4 stF.xw (F - 1) (D - 1) (H - 1) W Wall.NoWall)
    (hy : wld.ywalls = stF.yw) (hz : wld.zwalls = stF.zw) (hw : wld.wwalls = stF.ww)
    {a b : Coordinate} (h : adjCE W H D F stF a b) : noWallAdj wld a b := by
  obtain ⟨e, he, hwall, hp⟩ := h
  have hok := mem_enumEdges.mp he
  cases e with
  | XWall c =>
    obtain ⟨x, y, z, w⟩ := c
    obtain ⟨hne, hxW, hyH, hzD, hwF⟩ := hok
    have hxwall : wld.xwalls w z y x = Wall.NoWall := by
      rw [hx]
      unfold upd4
      rw [if_neg]
      · exact hwall
      · rintro ⟨-, -, -, rfl⟩; omega
    simp only [cellPair, Prod.mk.injEq] at hp
    rcases hp with ⟨rfl, rfl⟩ | ⟨rfl, rfl⟩ <;>
      refine ⟨by simp only [inBoundsN, hWw, hWh, hWd, hWf]; exact ⟨by omega, hyH, hzD, hwF⟩,
        by simp only [inBoundsN, hWw, hWh, hWd, hWf]; exact ⟨by omega, hyH, hzD, hwF⟩, ?_⟩
    · exact Or.inl ⟨rfl, rfl, rfl, Or.inl ⟨by dsimp only; omega, hxwall⟩⟩
    · exact Or.inl ⟨rfl, rfl, rfl, Or.inr ⟨by dsimp only; omega, hxwall⟩⟩
  | YWall c =>
    obtain ⟨x, y, z, w⟩ := c
    obtain ⟨hne, hxW, hyH, hzD, hwF⟩ := hok
    have hywall : wld.ywalls w z y x = Wall.NoWall := by rw [hy]; exact hwall
    simp only [cellPair, Prod.mk.injEq] at hp
    rcases hp with ⟨rfl, rfl⟩ | ⟨rfl, rfl⟩ <;>
      refine ⟨by simp only [inBoundsN, hWw, hWh, hWd, hWf]; exact ⟨hxW, by omega, hzD, hwF⟩,
        by simp only [inBoundsN, hWw, hWh, hWd, hWf]; exact ⟨hxW, by omega, hzD, hwF⟩, ?_⟩
    · exact Or.inr (Or.inl ⟨rfl, rfl, rfl, Or.inl ⟨by dsimp only; omega, hywall⟩⟩)
    · exact Or.inr (Or.inl ⟨rfl, rfl, rfl, Or.inr ⟨by dsimp only; omega, hywall⟩⟩)
  | ZWall c =>
    obtain ⟨x, y, z, w⟩ := c
    obtain ⟨hne, hxW, hyH, hzD, hwF⟩ := hok
    have hzwall : wld.zwalls w z y x = Wall.NoWall := by rw [hz]; exact hwall
    simp only [cellPair, Prod.mk.injEq] at hp
    rcases hp with ⟨rfl, rfl⟩ | ⟨rfl, rfl⟩ <;>
      refine ⟨by simp only [inBoundsN, hWw, hWh, hWd, hWf]; exact ⟨hxW, hyH, by omega, hwF⟩,
        by simp only [inBoundsN, hWw, hWh, hWd, hWf]; exact ⟨hxW, hyH, by omega, hwF⟩, ?_⟩
    · exact Or.inr (Or.inr (Or.inl ⟨rfl, rfl, rfl, Or.inl ⟨by dsimp only; omega, hzwall⟩⟩))
    · exact Or.inr (Or.inr (Or.inl ⟨rfl, rfl, rfl, Or.inr ⟨by dsimp only; omega, hzwall⟩⟩))
  | WWall c =>
    obtain ⟨x, y, z, w⟩ := c
    obtain ⟨hne, hxW, hyH, hzD, hwF⟩ := hok
    have hwwall : wld.wwalls w z y x = Wall.NoWall := by rw [hw]; exact hwall
    simp only [cellPair, Prod.mk.injEq] at hp
    rcases hp with ⟨rfl, rfl⟩ | ⟨rfl, rfl⟩ <;>
      refine ⟨by simp only [inBoundsN, hWw, hWh, hWd, hWf]; exact ⟨hxW, hyH, hzD, by omega⟩,
        by simp only [inBoundsN, hWw, hWh, hWd, hWf]; exact ⟨hxW, hyH, hzD, by omega⟩, ?_⟩
    · exact Or.inr (Or.inr (Or.inr ⟨rfl, rfl, rfl, Or.inl ⟨by dsimp only; omega, hwwall⟩⟩))
    · exact Or.inr (Or.inr (Or.inr ⟨rfl, rfl, rfl, Or.inr ⟨by dsimp only; omega, hwwall⟩⟩))

/-- `NoWall` adjacency of the final world between in-bounds cells comes
from a carved internal edge (the only non-internal `NoWall` entry, the
exit, has x-index `width`, which no in-bounds cell pair reads). -/
theorem noWallAdj_adjCE {W H D F : Nat} {stF : KState} {wld : World}
    (hWw : wld.width = W) (hWh : wld.height = H) (hWd : wld.depth = D)
    (hWf : wld.fourth = F)
    (hx : wld.xwalls = upd4 stF.xw (F - 1) (D - 1) (H - 1) W Wall.NoWall)
    (hy : wld.ywalls = stF.yw) (hz : wld.zwalls = stF.zw) (hw : wld.wwalls = stF.ww)
    {a b : Coordinate} (h : noWallAdj wld a b) : adjCE W H D F stF a b := by
  obtain ⟨ax, ay, az, aw⟩ := a
  obtain ⟨bx, b2, bz, bw⟩ := b
  obtain ⟨hA, hB, hcase⟩ := h
  rw [inBoundsN, hWw, hWh, hWd, hWf] at hA hB
  obtain ⟨hax, hay, haz, haw⟩ := hA
  obtain ⟨hbx, hby, hbz, hbw⟩ := hB
  dsimp only at hax hay haz haw hbx hby hbz hbw
  rcases hcase with ⟨h1, h2, h3, hdir⟩ | ⟨h1, h2, h3, hdir⟩ | ⟨h1, h2, h3, hdir⟩ |
    ⟨h1, h2, h3, hdir⟩ <;> dsimp only at h1 h2 h3 hdir <;> subst h1 <;> subst h2 <;> subst h3
  · -- x-axis
    rcases hdir with ⟨hstep, hwall⟩ | ⟨hstep, hwall⟩ <;> subst hstep
    · rw [hx] at hwall
      unfold upd4 at hwall
      rw [if_neg (by rintro ⟨-, -, -, h⟩; omega)] at hwall
      refine ⟨MazeEdge.XWall (ax + 1, ay, az, aw),
        mem_enumEdges.mpr ⟨by omega, by omega, hay, haz, haw⟩, hwall, Or.inl ?_⟩
      simp [cellPair]
    · rw [hx] at hwall
      unfold upd4 at hwall
      rw [if_neg (by rintro ⟨-, -, -, h⟩; omega)] at hwall
      refine ⟨MazeEdge.XWall (bx + 1, ay, az, aw),
        mem_enumEdges.mpr ⟨by omega, by omega, hay, haz, haw⟩, hwall,
        Or.inr ?_⟩
      simp [cellPair]
  · -- y-axis
    rcases hdir with ⟨hstep, hwall⟩ | ⟨hstep, hwall⟩ <;> subst hstep <;> rw [hy] at hwall
    · refine ⟨MazeEdge.YWall (ax, ay + 1, az, aw),
        mem_enumEdges.mpr ⟨by omega, hax, by omega, haz, haw⟩, hwall, Or.inl ?_⟩
      simp [cellPair]
    · refine ⟨MazeEdge.YWall (ax, b2 + 1, az, aw),
        mem_enumEdges.mpr ⟨by omega, hax, by omega, haz, haw⟩, hwall,
        Or.inr ?_⟩
      simp [cellPair]
  · -- z-axis
    rcases hdir with ⟨hstep, hwall⟩ | ⟨hstep, hwall⟩ <;> subst hstep <;> rw [hz] at hwall
    · refine ⟨MazeEdge.ZWall (ax, ay, az + 1, aw),
        mem_enumEdges.mpr ⟨by omega, hax, hay, by omega, haw⟩, hwall, Or.inl ?_⟩
      simp [cellPair]
    · refine ⟨MazeEdge.ZWall (ax, ay, bz + 1, aw),
        mem_enumEdges.mpr ⟨by omega, hax, hay, by omega, haw⟩, hwall,
        Or.inr ?_⟩
      simp [cellPair]
  · -- w-axis
    rcases hdir with ⟨hstep, hwall⟩ | ⟨hstep, hwall⟩ <;> subst hstep <;> rw [hw] at hwall
    · refine ⟨MazeEdge.WWall (ax, ay, az, aw + 1),
        mem_enumEdges.mpr ⟨by omega, hax, hay, haz, by omega⟩, hwall, Or.inl ?_⟩
      simp [cellPair]
    · refine ⟨MazeEdge.WWall (ax, ay, az, bw + 1),
        mem_enumEdges.mpr ⟨by omega, hax, hay, haz, by omega⟩, hwall,
        Or.inr ?_⟩
      simp [cellPair]

/-- Extracting the stage results and the final world's fields from a
completed `generate_maze` run. -/
theorem generateMaze_extract {W H D F : Nat} {edges : List MazeEdge} {wld : World}
    (hgen : generateMaze edges (initialWorld W H D F) = some wld) :
    ∃ stF bt sol,
      kruskalRun (kst0 W H D F) edges = some stF ∧
      bfsLoop stF.nbrs (W * H * D * F + 1) bfsInit = some bt ∧
      backtrackRun bt (0, 0, 0, 0) (W * H * D * F + 1) (W - 1, H - 1, D - 1, F - 1)
        [(W - 1, H - 1, D - 1, F - 1)] = some sol ∧
      wld.width = W ∧ wld.height = H ∧ wld.depth = D ∧ wld.fourth = F ∧
      wld.xwalls = upd4 stF.xw (F - 1) (D - 1) (H - 1) W Wall.NoWall ∧
      wld.ywalls = stF.yw ∧ wld.zwalls = stF.zw ∧ wld.wwalls = stF.ww ∧
      wld.start = (0, 0, 0, 0) ∧ wld.finish = (W - 1, H - 1, D - 1, F - 1) ∧
      wld.solution = sol.reverse := by
  rw [generateMaze_eq] at hgen
  cases hrunc : kruskalRun (kst0 W H D F) edges with
  | none => rw [hrunc] at hgen; cases hgen
  | some stF =>
    rw [hrunc] at hgen
    dsimp only at hgen
    cases hbfsc : bfsLoop stF.nbrs (W * H * D * F + 1) bfsInit with
    | none => rw [hbfsc] at hgen; cases hgen
    | some bt =>
      rw [hbfsc] at hgen
      dsimp only at hgen
      cases hbtc : backtrackRun bt (0, 0, 0, 0) (W * H * D * F + 1)
          (W - 1, H - 1, D - 1, F - 1) [(W - 1, H - 1, D - 1, F - 1)] with
      | none => rw [hbtc] at hgen; cases hgen
      | some sol =>
        rw [hbtc] at hgen
        dsimp only at hgen
        obtain rfl := (Option.some.inj hgen).symm
        exact ⟨stF, bt, sol, rfl, hbfsc, hbtc, rfl, rfl, rfl, rfl, rfl, rfl, rfl,
          rfl, rfl, rfl, rfl⟩

/-- C9: after `generate_maze`, every outer-boundary wall entry (index `0`
or the dimension value along the bounded axis) is `SolidWall`, with the
sole exception of the designated exit `xwalls[fourth-1][depth-1][height-1]
[width]`, which is `NoWall`.  (The carving loop only ever writes internal
entries: the enumeration skips boundaries at coordinate 0 and the bounded
index of every candidate is below the dimension.) -/
theorem generate_maze_outer_walls (W H D F : Nat) (hW : 0 < W) (hH : 0 < H)
    (hD : 0 < D) (hF : 0 < F) (edges : List MazeEdge)
    (hperm : List.Perm edges (enumEdges W H D F)) (wld : World)
    (hgen : generateMaze edges (initialWorld W H D F) = some wld) :
    (∀ w z y x, w < F → z < D → y < H → x ≤ W → (x = 0 ∨ x = W) →
        ¬(w = F - 1 ∧ z = D - 1 ∧ y = H - 1 ∧ x = W) →
        wld.xwalls w z y x = Wall.SolidWall) ∧
    (∀ w z y x, w < F → z < D → y ≤ H → x < W → (y = 0 ∨ y = H) →
        wld.ywalls w z y x = Wall.SolidWall) ∧
    (∀ w z y x, w < F → z ≤ D → y < H → x < W → (z = 0 ∨ z = D) →
        wld.zwalls w z y x = Wall.SolidWall) ∧
    (∀ w z y x, w ≤ F → z < D → y < H → x < W → (w = 0 ∨ w = F) →
        wld.wwalls w z y x = Wall.SolidWall) ∧
    wld.xwalls (F - 1) (D - 1) (H - 1) W = Wall.NoWall := by
  obtain ⟨stF, bt, sol, hrunc, -, -, hWw, hWh, hWd, hWf, hx, hy, hz, hw, -, -, -⟩ :=
    generateMaze_extract hgen
  obtain ⟨stF2, rep, u, hrun2, inv, hedges, -⟩ :=
    kruskalRun_inv edges (kst0 W H D F) id 0 (kst0_inv W H D F)
      (fun e he => hperm.mem_iff.mp he)
  obtain rfl : stF = stF2 := Option.some.inj (hrunc.symm.trans hrun2)
  obtain ⟨hox, hoy, hoz, how⟩ := inv.outer
  refine ⟨?_, ?_, ?_, ?_, ?_⟩
  · intro w z y x hwF hzD hyH hxW hext hnotexit
    rw [hx]
    unfold upd4
    rw [if_neg (fun hc => hnotexit ⟨hc.1, hc.2.1, hc.2.2.1, hc.2.2.2⟩)]
    exact hox w z y x hext
  · intro w z y x hwF hzD hyH hxW hext
    rw [hy]
    exact hoy w z y x hext
  · intro w z y x hwF hzD hyH hxW hext
    rw [hz]
    exact hoz w z y x hext
  · intro w z y x hwF hzD hyH hxW hext
    rw [hw]
    exact how w z y x hext
  · rw [hx]
    unfold upd4
    rw [if_pos ⟨rfl, rfl, rfl, rfl⟩]

/-- C1: after `generate_maze`, the graph whose vertices are the in-bounds
cells and whose edges are the `NoWall` boundaries is connected: every cell
is reachable from every other cell through `NoWall` boundaries. -/
theorem generate_maze_connected (W H D F : Nat) (hW : 0 < W) (hH : 0 < H)
    (hD : 0 < D) (hF : 0 < F) (edges : List MazeEdge)
    (hperm : List.Perm edges (enumEdges W H D F)) (wld : World)
    (hgen : generateMaze edges (initialWorld W H D F) = some wld) :
    ∀ a b : Coordinate, inBoundsN wld a → inBoundsN wld b → Reachable wld a b := by
  obtain ⟨stF, bt, sol, hrunc, -, -, hWw, hWh, hWd, hWf, hx, hy, hz, hw, -, -, -⟩ :=
    generateMaze_extract hgen
  obtain ⟨stF2, rep, u, hrun2, inv, hedges, -⟩ :=
    kruskalRun_inv edges (kst0 W H D F) id 0 (kst0_inv W H D F)
      (fun e he => hperm.mem_iff.mp he)
  obtain rfl : stF = stF2 := Option.some.inj (hrunc.symm.trans hrun2)
  have hall : ∀ c ∈ cellsF W H D F, rep c = rep (0, 0, 0, 0) :=
    rep_all_eq (fun e he => hedges e (hperm.mem_iff.mpr he))
  intro a b ha hb
  rw [inBoundsN, hWw, hWh, hWd, hWf] at ha hb
  have ha' : a ∈ cellsF W H D F := mem_cellsF.mpr ha
  have hb' : b ∈ cellsF W H D F := mem_cellsF.mpr hb
  have hrep : rep a = rep b := (hall a ha').trans (hall b hb').symm
  have hreach := inv.reach a ha' b hb' hrep
  exact Relation.ReflTransGen.mono
    (fun a2 b2 h2 => adjCE_noWallAdj hWw hWh hWd hWf hx hy hz hw h2) hreach

/-- Witness for C9 on the concrete 2×2×1×1 run. -/
theorem generate_maze_outer_walls_witness :
    wld2.ywalls 0 0 0 0 = Wall.SolidWall ∧ wld2.xwalls 0 0 1 2 = Wall.NoWall := by
  have h := generate_maze_outer_walls 2 2 1 1 (by decide) (by decide) (by decide)
    (by decide) edges2 (List.Perm.refl (enumEdges 2 2 1 1)) wld2 gen2_eq
  exact ⟨h.2.1 0 0 0 0 (by decide) (by decide) (by decide) (by decide) (Or.inl rfl),
    h.2.2.2.2⟩

/-- Witness for C1 on the concrete 2×2×1×1 run. -/
theorem generate_maze_connected_witness : Reachable wld2 (0, 0, 0, 0) (1, 1, 0, 0) :=
  generate_maze_connected 2 2 1 1 (by decide) (by decide) (by decide) (by decide)
    edges2 (List.Perm.refl (enumEdges 2 2 1 1)) wld2 gen2_eq
    (0, 0, 0, 0) (1, 1, 0, 0) (by decide) (by decide)

/-! ### The internal-`NoWall` count (C2) -/

/-- All index tuples `(w, z, y, x)` of a wall array with the given
extents, in row-major order. -/
def axisPositions (we ze ye xe : Nat) : List (Nat × Nat × Nat × Nat) :=
  (List.range we).flatMap fun w =>
    (List.range ze).flatMap fun z =>
      (List.range ye).flatMap fun y =>
        (List.range xe).map fun x => (w, z, y, x)

theorem mem_axisPositions {we ze ye xe : Nat} {p : Nat × Nat × Nat × Nat} :
    p ∈ axisPositions we ze ye xe ↔
      p.1 < we ∧ p.2.1 < ze ∧ p.2.2.1 < ye ∧ p.2.2.2 < xe := by
  obtain ⟨w, z, y, x⟩ := p
  simp only [axisPositions, List.mem_flatMap, List.mem_range, List.mem_map]
  constructor
  · rintro ⟨w', hw, z', hz, y', hy, x', hx, heq⟩
    cases heq
    exact ⟨hw, hz, hy, hx⟩
  · rintro ⟨hw, hz, hy, hx⟩
    exact ⟨w, hw, z, hz, y, hy, x, hx, rfl⟩

theorem axisPositions_nodup (we ze ye xe : Nat) : (axisPositions we ze ye xe).Nodup := by
  unfold axisPositions
  rw [List.nodup_flatMap]
  refine ⟨fun w _ => ?_, ?_⟩
  · rw [List.nodup_flatMap]
    refine ⟨fun z _ => ?_, ?_⟩
    · rw [List.nodup_flatMap]
      refine ⟨fun y _ => ?_, ?_⟩
      · exact (List.nodup_range xe).map fun a b hab => by cases hab; rfl
      · refine List.Pairwise.imp ?_ (List.pairwise_lt_range ye)
        intro y y' hlt p hp hp'
        simp only [List.mem_map] at hp hp'
        obtain ⟨x, -, rfl⟩ := hp
        obtain ⟨x', -, heq⟩ := hp'
        cases heq
        omega
    · refine List.Pairwise.imp ?_ (List.pairwise_lt_range ze)
      intro z z' hlt p hp hp'
      simp only [List.mem_flatMap, List.mem_range, List.mem_map] at hp hp'
      obtain ⟨y, -, x, -, rfl⟩ := hp
      obtain ⟨y', -, x', -, heq⟩ := hp'
      cases heq
      omega
  · refine List.Pairwise.imp ?_ (List.pairwise_lt_range we)
    intro w w' hlt p hp hp'
    simp only [List.mem_flatMap, List.mem_range, List.mem_map] at hp hp'
    obtain ⟨z, -, y, -, x, -, rfl⟩ := hp
    obtain ⟨z', -, y', -, x', -, heq⟩ := hp'
    cases heq
    omega

/-- The number of internal `NoWall` boundaries of a world: entries of the
four wall arrays whose bounded-axis index is strictly between `0` and that
axis's dimension and whose value is `NoWall`. -/
def internalNoWallCount (wld : World) : Nat :=
  (axisPositions wld.fourth wld.depth wld.height (wld.width + 1)).countP
      (fun p => decide (0 < p.2.2.2 ∧ p.2.2.2 < wld.width ∧
        wld.xwalls p.1 p.2.1 p.2.2.1 p.2.2.2 = Wall.NoWall)) +
  (axisPositions wld.fourth wld.depth (wld.height + 1) wld.width).countP
      (fun p => decide (0 < p.2.2.1 ∧ p.2.2.1 < wld.height ∧
        wld.ywalls p.1 p.2.1 p.2.2.1 p.2.2.2 = Wall.NoWall)) +
  (axisPositions wld.fourth (wld.depth + 1) wld.height wld.width).countP
      (fun p => decide (0 < p.2.1 ∧ p.2.1 < wld.depth ∧
        wld.zwalls p.1 p.2.1 p.2.2.1 p.2.2.2 = Wall.NoWall)) +
  (axisPositions (wld.fourth + 1) wld.depth wld.height wld.width).countP
      (fun p => decide (0 < p.1 ∧ p.1 < wld.fourth ∧
        wld.wwalls p.1 p.2.1 p.2.2.1 p.2.2.2 = Wall.NoWall))

/-- Reading the wall a candidate edge addresses directly from a world. -/
def edgeWallW (wld : World) : MazeEdge → Wall
  | MazeEdge.XWall (x, y, z, w) => wld.xwalls w z y x
  | MazeEdge.YWall (x, y, z, w) => wld.ywalls w z y x
  | MazeEdge.ZWall (x, y, z, w) => wld.zwalls w z y x
  | MazeEdge.WWall (x, y, z, w) => wld.wwalls w z y x

/-- The candidate edges grouped by family, each family obtained from the
internal positions of its wall array. -/
def groupedEdges (W H D F : Nat) : List MazeEdge :=
  (((axisPositions F D H (W + 1)).filter
      (fun p => decide (0 < p.2.2.2 ∧ p.2.2.2 < W))).map
    (fun p => MazeEdge.XWall (p.2.2.2, p.2.2.1, p.2.1, p.1))) ++
  (((axisPositions F D (H + 1) W).filter
      (fun p => decide (0 < p.2.2.1 ∧ p.2.2.1 < H))).map
    (fun p => MazeEdge.YWall (p.2.2.2, p.2.2.1, p.2.1, p.1))) ++
  (((axisPositions F (D + 1) H W).filter
      (fun p => decide (0 < p.2.1 ∧ p.2.1 < D))).map
    (fun p => MazeEdge.ZWall (p.2.2.2, p.2.2.1, p.2.1, p.1))) ++
  (((axisPositions (F + 1) D H W).filter
      (fun p => decide (0 < p.1 ∧ p.1 < F))).map
    (fun p => MazeEdge.WWall (p.2.2.2, p.2.2.1, p.2.1, p.1)))

theorem mem_groupedEdges {W H D F : Nat} {e : MazeEdge} :
    e ∈ groupedEdges W H D F ↔ edgeOK W H D F e := by
  unfold groupedEdges
  simp only [List.mem_append, List.mem_map, List.mem_filter, mem_axisPositions,
    decide_eq_true_eq]
  constructor
  · intro h
    rcases h with ((⟨p, hp, rfl⟩ | ⟨p, hp, rfl⟩) | ⟨p, hp, rfl⟩) | ⟨p, hp, rfl⟩ <;>
      obtain ⟨pw, pz, py, px⟩ := p <;>
      obtain ⟨⟨hw, hz, hy, hx⟩, hint⟩ := hp <;>
      dsimp only at hw hz hy hx hint
    · exact show px ≠ 0 ∧ px < W ∧ py < H ∧ pz < D ∧ pw < F from
        ⟨by omega, by omega, by omega, by omega, by omega⟩
    · exact show py ≠ 0 ∧ px < W ∧ py < H ∧ pz < D ∧ pw < F from
        ⟨by omega, by omega, by omega, by omega, by omega⟩
    · exact show pz ≠ 0 ∧ px < W ∧ py < H ∧ pz < D ∧ pw < F from
        ⟨by omega, by omega, by omega, by omega, by omega⟩
    · exact show pw ≠ 0 ∧ px < W ∧ py < H ∧ pz < D ∧ pw < F from
        ⟨by omega, by omega, by omega, by omega, by omega⟩
  · intro hok
    cases e with
    | XWall c =>
      obtain ⟨x, y, z, w⟩ := c
      obtain ⟨hne, hx, hy, hz, hw⟩ := hok
      exact Or.inl (Or.inl (Or.inl ⟨(w, z, y, x), ⟨⟨hw, hz, hy, by dsimp only; omega⟩, ⟨by dsimp only; omega, hx⟩⟩,
        rfl⟩))
    | YWall c =>
      obtain ⟨x, y, z, w⟩ := c
      obtain ⟨hne, hx, hy, hz, hw⟩ := hok
      exact Or.inl (Or.inl (Or.inr ⟨(w, z, y, x), ⟨⟨hw, hz, by dsimp only; omega, hx⟩, ⟨by dsimp only; omega, hy⟩⟩,
        rfl⟩))
    | ZWall c =>
      obtain ⟨x, y, z, w⟩ := c
      obtain ⟨hne, hx, hy, hz, hw⟩ := hok
      exact Or.inl (Or.inr ⟨(w, z, y, x), ⟨⟨hw, by dsimp only; omega, hy, hx⟩, ⟨by dsimp only; omega, hz⟩⟩, rfl⟩)
    | WWall c =>
      obtain ⟨x, y, z, w⟩ := c
      obtain ⟨hne, hx, hy, hz, hw⟩ := hok
      exact Or.inr ⟨(w, z, y, x), ⟨⟨by dsimp only; omega, hz, hy, hx⟩, ⟨by dsimp only; omega, hw⟩⟩, rfl⟩

theorem groupedEdges_nodup (W H D F : Nat) : (groupedEdges W H D F).Nodup := by
  have hXinj : Function.Injective
      (fun p : Nat × Nat × Nat × Nat => MazeEdge.XWall (p.2.2.2, p.2.2.1, p.2.1, p.1)) := by
    rintro ⟨a1, a2, a3, a4⟩ ⟨b1, b2, b3, b4⟩ h
    injection h with h
    cases h
    rfl
  have hYinj : Function.Injective
      (fun p : Nat × Nat × Nat × Nat => MazeEdge.YWall (p.2.2.2, p.2.2.1, p.2.1, p.1)) := by
    rintro ⟨a1, a2, a3, a4⟩ ⟨b1, b2, b3, b4⟩ h
    injection h with h
    cases h
    rfl
  have hZinj : Function.Injective
      (fun p : Nat × Nat × Nat × Nat => MazeEdge.ZWall (p.2.2.2, p.2.2.1, p.2.1, p.1)) := by
    rintro ⟨a1, a2, a3, a4⟩ ⟨b1, b2, b3, b4⟩ h
    injection h with h
    cases h
    rfl
  have hWinj : Function.Injective
      (fun p : Nat × Nat × Nat × Nat => MazeEdge.WWall (p.2.2.2, p.2.2.1, p.2.1, p.1)) := by
    rintro ⟨a1, a2, a3, a4⟩ ⟨b1, b2, b3, b4⟩ h
    injection h with h
    cases h
    rfl
  have hdis : ∀ {l1 l2 : List (Nat × Nat × Nat × Nat)}
      {f g : (Nat × Nat × Nat × Nat) → MazeEdge},
      (∀ p q, f p ≠ g q) → (l1.map f).Disjoint (l2.map g) := by
    intro l1 l2 f g hfg a ha hb
    simp only [List.mem_map] at ha hb
    obtain ⟨p, -, rfl⟩ := ha
    obtain ⟨q, -, heq⟩ := hb
    exact hfg p q heq.symm
  unfold groupedEdges
  refine List.Nodup.append (List.Nodup.append (List.Nodup.append ?_ ?_ ?_) ?_ ?_) ?_ ?_
  · exact ((axisPositions_nodup F D H (W + 1)).filter _).map hXinj
  · exact ((axisPositions_nodup F D (H + 1) W).filter _).map hYinj
  · exact hdis fun p q h => by simp at h
  · exact ((axisPositions_nodup F (D + 1) H W).filter _).map hZinj
  · rw [List.disjoint_append_left]
    exact ⟨hdis fun p q h => by simp at h, hdis fun p q h => by simp at h⟩
  · exact ((axisPositions_nodup (F + 1) D H W).filter _).map hWinj
  · rw [List.disjoint_append_left, List.disjoint_append_left]
    exact ⟨⟨hdis fun p q h => by simp at h, hdis fun p q h => by simp at h⟩,
      hdis fun p q h => by simp at h⟩

theorem countP_filter_map {α β : Type} (l : List α) (q : α → Bool) (f : α → β)
    (P : β → Bool) :
    ((l.filter q).map f).countP P = l.countP (fun p => P (f p) && q p) := by
  rw [List.countP_map, List.countP_filter]
  rfl

/-- The internal-`NoWall` count is the count of carved candidate edges. -/
theorem internalNoWallCount_eq (wld : World) :
    internalNoWallCount wld =
      (groupedEdges wld.width wld.height wld.depth wld.fourth).countP
        (fun e => decide (edgeWallW wld e = Wall.NoWall)) := by
  unfold internalNoWallCount groupedEdges
  rw [List.countP_append, List.countP_append, List.countP_append,
    countP_filter_map, countP_filter_map, countP_filter_map, countP_filter_map]
  have hx : (axisPositions wld.fourth wld.depth wld.height (wld.width + 1)).countP
      (fun p => decide (0 < p.2.2.2 ∧ p.2.2.2 < wld.width ∧
        wld.xwalls p.1 p.2.1 p.2.2.1 p.2.2.2 = Wall.NoWall)) =
      (axisPositions wld.fourth wld.depth wld.height (wld.width + 1)).countP
      (fun p => decide (edgeWallW wld
          (MazeEdge.XWall (p.2.2.2, p.2.2.1, p.2.1, p.1)) = Wall.NoWall) &&
        decide (0 < p.2.2.2 ∧ p.2.2.2 < wld.width)) := by
    apply List.countP_congr
    rintro ⟨pw, pz, py, px⟩ -
    simp only [edgeWallW, Bool.and_eq_true, decide_eq_true_eq]
    constructor
    · rintro ⟨h1, h2, h3⟩; exact ⟨h3, h1, h2⟩
    · rintro ⟨h3, h1, h2⟩; exact ⟨h1, h2, h3⟩
  have hy : (axisPositions wld.fourth wld.depth (wld.height + 1) wld.width).countP
      (fun p => decide (0 < p.2.2.1 ∧ p.2.2.1 < wld.height ∧
        wld.ywalls p.1 p.2.1 p.2.2.1 p.2.2.2 = Wall.NoWall)) =
      (axisPositions wld.fourth wld.depth (wld.height + 1) wld.width).countP
      (fun p => decide (edgeWallW wld
          (MazeEdge.YWall (p.2.2.2, p.2.2.1, p.2.1, p.1)) = Wall.NoWall) &&
        decide (0 < p.2.2.1 ∧ p.2.2.1 < wld.height)) := by
    apply List.countP_congr
    rintro ⟨pw, pz, py, px⟩ -
    simp only [edgeWallW, Bool.and_eq_true, decide_eq_true_eq]
    constructor
    · rintro ⟨h1, h2, h3⟩; exact ⟨h3, h1, h2⟩
    · rintro ⟨h3, h1, h2⟩; exact ⟨h1, h2, h3⟩
  have hz : (axisPositions wld.fourth (wld.depth + 1) wld.height wld.width).countP
      (fun p => decide (0 < p.2.1 ∧ p.2.1 < wld.depth ∧
        wld.zwalls p.1 p.2.1 p.2.2.1 p.2.2.2 = Wall.NoWall)) =
      (axisPositions wld.fourth (wld.depth + 1) wld.height wld.width).countP
      (fun p => decide (edgeWallW wld
          (MazeEdge.ZWall (p.2.2.2, p.2.2.1, p.2.1, p.1)) = Wall.NoWall) &&
        decide (0 < p.2.1 ∧ p.2.1 < wld.depth)) := by
    apply List.countP_congr
    rintro ⟨pw, pz, py, px⟩ -
    simp only [edgeWallW, Bool.and_eq_true, decide_eq_true_eq]
    constructor
    · rintro ⟨h1, h2, h3⟩; exact ⟨h3, h1, h2⟩
    · rintro ⟨h3, h1, h2⟩; exact ⟨h1, h2, h3⟩
  have hw : (axisPositions (wld.fourth + 1) wld.depth wld.height wld.width).countP
      (fun p => decide (0 < p.1 ∧ p.1 < wld.fourth ∧
        wld.wwalls p.1 p.2.1 p.2.2.1 p.2.2.2 = Wall.NoWall)) =
      (axisPositions (wld.fourth + 1) wld.depth wld.height wld.width).countP
      (fun p => decide (edgeWallW wld
          (MazeEdge.WWall (p.2.2.2, p.2.2.1, p.2.1, p.1)) = Wall.NoWall) &&
        decide (0 < p.1 ∧ p.1 < wld.fourth)) := by
    apply List.countP_congr
    rintro ⟨pw, pz, py, px⟩ -
    simp only [edgeWallW, Bool.and_eq_true, decide_eq_true_eq]
    constructor
    · rintro ⟨h1, h2, h3⟩; exact ⟨h3, h1, h2⟩
    · rintro ⟨h3, h1, h2⟩; exact ⟨h1, h2, h3⟩
  rw [hx, hy, hz, hw]

/-- C2: after `generate_maze` on a positive-dimension grid with
`n = width*height*depth*fourth` cells, exactly `n - 1` internal boundaries
are `NoWall` (the carved edges form a spanning tree: connectivity is
`generate_maze_connected`, and a connected graph on `n` vertices with
`n - 1` edges is acyclic). -/
theorem generate_maze_spanning_count (W H D F : Nat) (hW : 0 < W) (hH : 0 < H)
    (hD : 0 < D) (hF : 0 < F) (edges : List MazeEdge)
    (hperm : List.Perm edges (enumEdges W H D F)) (wld : World)
    (hgen : generateMaze edges (initialWorld W H D F) = some wld) :
    internalNoWallCount wld = W * H * D * F - 1 := by
  obtain ⟨stF, bt, sol, hrunc, -, -, hWw, hWh, hWd, hWf, hx, hy, hz, hw, -, -, -⟩ :=
    generateMaze_extract hgen
  obtain ⟨stF2, rep, u, hrun2, inv, hedges, -⟩ :=
    kruskalRun_inv edges (kst0 W H D F) id 0 (kst0_inv W H D F)
      (fun e he => hperm.mem_iff.mp he)
  obtain rfl : stF = stF2 := Option.some.inj (hrunc.symm.trans hrun2)
  have hall : ∀ c ∈ cellsF W H D F, rep c = rep (0, 0, 0, 0) :=
    rep_all_eq (fun e he => hedges e (hperm.mem_iff.mpr he))
  have hone : (cellsF W H D F).image rep = {rep (0, 0, 0, 0)} := by
    ext r
    simp only [Finset.mem_image, Finset.mem_singleton]
    constructor
    · rintro ⟨c, hc, rfl⟩
      exact hall c hc
    · rintro rfl
      exact ⟨(0, 0, 0, 0), mem_cellsF.mpr ⟨hW, hH, hD, hF⟩, rfl⟩
  have himg := inv.img
  rw [hone, Finset.card_singleton, card_cellsF] at himg
  have hwalls : ∀ e ∈ enumEdges W H D F, edgeWallW wld e = edgeWall stF e := by
    intro e he
    have hok := mem_enumEdges.mp he
    cases e with
    | XWall c =>
      obtain ⟨x, y, z, w⟩ := c
      obtain ⟨hne, hxW, -, -, -⟩ := hok
      show wld.xwalls w z y x = stF.xw w z y x
      rw [hx]
      unfold upd4
      rw [if_neg (by rintro ⟨-, -, -, rfl⟩; omega)]
    | YWall c =>
      obtain ⟨x, y, z, w⟩ := c
      show wld.ywalls w z y x = stF.yw w z y x
      rw [hy]
    | ZWall c =>
      obtain ⟨x, y, z, w⟩ := c
      show wld.zwalls w z y x = stF.zw w z y x
      rw [hz]
    | WWall c =>
      obtain ⟨x, y, z, w⟩ := c
      show wld.wwalls w z y x = stF.ww w z y x
      rw [hw]
  have hpermg : List.Perm (groupedEdges W H D F) (enumEdges W H D F) :=
    (List.perm_ext_iff_of_nodup (groupedEdges_nodup W H D F)
      (enumEdges_nodup W H D F)).mpr
      (fun e => mem_groupedEdges.trans mem_enumEdges.symm)
  calc internalNoWallCount wld
      = (groupedEdges wld.width wld.height wld.depth wld.fourth).countP
          (fun e => decide (edgeWallW wld e = Wall.NoWall)) := internalNoWallCount_eq wld
    _ = (groupedEdges W H D F).countP
          (fun e => decide (edgeWallW wld e = Wall.NoWall)) := by
        rw [hWw, hWh, hWd, hWf]
    _ = (enumEdges W H D F).countP
          (fun e => decide (edgeWallW wld e = Wall.NoWall)) :=
        hpermg.countP_eq (fun e => decide (edgeWallW wld e = Wall.NoWall))
    _ = (enumEdges W H D F).countP
          (fun e => decide (edgeWall stF e = Wall.NoWall)) := by
        apply List.countP_congr
        intro e he
        rw [decide_eq_true_eq, decide_eq_true_eq, hwalls e he]
    _ = u := inv.count
    _ = W * H * D * F - 1 := by omega

/-- Witness for C2 on the concrete 2×2×1×1 run: 3 internal openings. -/
theorem generate_maze_spanning_count_witness : internalNoWallCount wld2 = 3 :=
  generate_maze_spanning_count 2 2 1 1 (by decide) (by decide) (by decide) (by decide)
    edges2 (List.Perm.refl (enumEdges 2 2 1 1)) wld2 gen2_eq

/-! ### Walks over the neighbor map and BFS distances (for C3) -/

/-- Adjacency through the neighbor map built during generation. -/
def adjN (nbrs : Coordinate → List Coordinate) (a b : Coordinate) : Prop := b ∈ nbrs a

/-- A walk of `k` edges from `s` to `v` along the neighbor map. -/
def hasWalk (nbrs : Coordinate → List Coordinate) (s v : Coordinate) (k : Nat) : Prop :=
  ∃ p : List Coordinate, List.Chain' (adjN nbrs) p ∧ p.head? = some s ∧
    p.getLast? = some v ∧ p.length = k + 1

/-- `k` is the BFS distance from `s` to `v`: a walk of `k` edges exists
and none shorter does. -/
def minD (nbrs : Coordinate → List Coordinate) (s v : Coordinate) (k : Nat) : Prop :=
  hasWalk nbrs s v k ∧ ∀ j, hasWalk nbrs s v j → k ≤ j

theorem hasWalk_zero {nbrs : Coordinate → List Coordinate} {s v : Coordinate} :
    hasWalk nbrs s v 0 ↔ v = s := by
  constructor
  · rintro ⟨p, -, hh, hl, hlen⟩
    obtain ⟨a, rfl⟩ : ∃ a, p = [a] := by
      cases p with
      | nil => cases hlen
      | cons a t =>
        cases t with
        | nil => exact ⟨a, rfl⟩
        | cons b t2 => simp at hlen
    simp only [List.head?_cons, List.getLast?_singleton] at hh hl
    rw [← Option.some.inj hh, ← Option.some.inj hl]
  · rintro rfl
    exact ⟨[v], List.chain'_singleton v, rfl, rfl, rfl⟩

theorem hasWalk_self (nbrs : Coordinate → List Coordinate) (s : Coordinate) :
    hasWalk nbrs s s 0 := hasWalk_zero.mpr rfl

theorem hasWalk_extend {nbrs : Coordinate → List Coordinate} {s v u : Coordinate} {k : Nat}
    (h : hasWalk nbrs s v k) (hu : u ∈ nbrs v) : hasWalk nbrs s u (k + 1) := by
  obtain ⟨p, hc, hh, hl, hlen⟩ := h
  have hpne : p ≠ [] := by
    intro h0; rw [h0] at hlen; cases hlen
  refine ⟨p ++ [u], ?_, ?_, ?_, ?_⟩
  · rw [List.chain'_append]
    refine ⟨hc, List.chain'_singleton u, ?_⟩
    intro x hx y hy
    rw [hl] at hx
    rw [List.head?_cons] at hy
    rw [Option.mem_def] at hx hy
    rw [← Option.some.inj hx, ← Option.some.inj hy]
    exact hu
  · cases p with
    | nil => exact absurd rfl hpne
    | cons a t => simpa using hh
  · simp
  · simp [hlen]

theorem hasWalk_backstep {nbrs : Coordinate → List Coordinate} {s v : Coordinate} {k : Nat}
    (h : hasWalk nbrs s v (k + 1)) : ∃ c, v ∈ nbrs c ∧ hasWalk nbrs s c k := by
  obtain ⟨p, hc, hh, hl, hlen⟩ := h
  have hpne : p ≠ [] := by
    intro h0; rw [h0] at hlen; cases hlen
  have hsplit : p.dropLast ++ [p.getLast hpne] = p := List.dropLast_append_getLast hpne
  have hlast : p.getLast hpne = v := by
    have := List.getLast?_eq_getLast p hpne
    rw [hl] at this
    exact (Option.some.inj this).symm
  have hqlen : p.dropLast.length = k + 1 := by
    have := List.length_dropLast p
    omega
  have hqne : p.dropLast ≠ [] := by
    intro h0; rw [h0] at hqlen; cases hqlen
  obtain ⟨c, hc'⟩ : ∃ c, p.dropLast.getLast? = some c :=
    ⟨p.dropLast.getLast hqne, List.getLast?_eq_getLast _ hqne⟩
  have hchain : List.Chain' (adjN nbrs) (p.dropLast ++ [v]) := by
    rw [hlast] at hsplit
    rw [hsplit]
    exact hc
  rw [List.chain'_append] at hchain
  refine ⟨c, ?_, p.dropLast, hchain.1, ?_, hc', hqlen⟩
  · have := hchain.2.2 c (by rw [Option.mem_def, hc']) v (by simp)
    exact this
  · have hsplit' : p.dropLast ++ [v] = p := by rw [hlast] at hsplit; exact hsplit
    cases hdl : p.dropLast with
    | nil => exact absurd hdl hqne
    | cons a t =>
      rw [hdl] at hsplit'
      rw [← hsplit'] at hh
      simp only [List.cons_append, List.head?_cons] at hh
      simp only [List.head?_cons]
      exact hh

theorem minD_unique {nbrs : Coordinate → List Coordinate} {s v : Coordinate} {k j : Nat}
    (hk : minD nbrs s v k) (hj : minD nbrs s v j) : k = j :=
  Nat.le_antisymm (hk.2 j hj.1) (hj.2 k hk.1)

theorem minD_exists {nbrs : Coordinate → List Coordinate} {s v : Coordinate}
    (h : ∃ m, hasWalk nbrs s v m) : ∃ k, minD nbrs s v k := by
  obtain ⟨k, hk, hmin⟩ := Nat.lt_wfRel.wf.has_min (setOf (hasWalk nbrs s v)) h
  exact ⟨k, hk, fun j hj => not_lt.mp (hmin j hj)⟩

theorem minD_self {nbrs : Coordinate → List Coordinate} (s : Coordinate) :
    minD nbrs s s 0 := ⟨hasWalk_self nbrs s, fun j _ => Nat.zero_le j⟩

theorem minD_zero {nbrs : Coordinate → List Coordinate} {s v : Coordinate}
    (h : minD nbrs s v 0) : v = s := hasWalk_zero.mp h.1

theorem minD_backstep {nbrs : Coordinate → List Coordinate} {s v : Coordinate} {k : Nat}
    (h : minD nbrs s v (k + 1)) : ∃ c, v ∈ nbrs c ∧ minD nbrs s c k := by
  obtain ⟨c, hcv, hwalk⟩ := hasWalk_backstep h.1
  obtain ⟨j, hj⟩ := minD_exists ⟨k, hwalk⟩
  have hjk : j ≤ k := hj.2 k hwalk
  have : k + 1 ≤ j + 1 := h.2 (j + 1) (hasWalk_extend hj.1 hcv)
  obtain rfl : j = k := by omega
  exact ⟨c, hcv, hj⟩

/-- The cells at BFS distances `0..k` from `s` are `k + 1` pairwise
distinct members of `V`, so every BFS distance is below `V.card`. -/
theorem minD_layers_list {nbrs : Coordinate → List Coordinate} {V : Finset Coordinate}
    (hV : ∀ a b, b ∈ nbrs a → a ∈ V ∧ b ∈ V) {s : Coordinate} (hs : s ∈ V) :
    ∀ k v, minD nbrs s v k →
      ∃ l : List Coordinate, l.length = k + 1 ∧ l.Nodup ∧
        (∀ x ∈ l, x ∈ V ∧ ∃ j, j ≤ k ∧ minD nbrs s x j) := by
  intro k
  induction k with
  | zero =>
    intro v hv
    refine ⟨[s], rfl, List.nodup_singleton s, ?_⟩
    intro x hx
    rw [List.mem_singleton] at hx
    subst hx
    exact ⟨hs, 0, le_refl 0, minD_self x⟩
  | succ k ih =>
    intro v hv
    obtain ⟨c, hcv, hc⟩ := minD_backstep hv
    obtain ⟨l, hlen, hnd, hmem⟩ := ih c hc
    refine ⟨v :: l, by simp [hlen], ?_, ?_⟩
    · rw [List.nodup_cons]
      refine ⟨fun hvl => ?_, hnd⟩
      obtain ⟨-, j, hj, hjmin⟩ := hmem v hvl
      have := minD_unique hjmin hv
      omega
    · intro x hx
      rcases List.mem_cons.mp hx with rfl | hx'
      · exact ⟨(hV c x hcv).2, k + 1, le_refl _, hv⟩
      · obtain ⟨hxV, j, hj, hjmin⟩ := hmem x hx'
        exact ⟨hxV, j, by omega, hjmin⟩

theorem minD_lt_card {nbrs : Coordinate → List Coordinate} {V : Finset Coordinate}
    (hV : ∀ a b, b ∈ nbrs a → a ∈ V ∧ b ∈ V) {s : Coordinate} (hs : s ∈ V)
    {v : Coordinate} {k : Nat} (h : minD nbrs s v k) : k < V.card := by
  obtain ⟨l, hlen, hnd, hmem⟩ := minD_layers_list hV hs k v h
  have hsub : l.toFinset ⊆ V := by
    intro x hx
    rw [List.mem_toFinset] at hx
    exact (hmem x hx).1
  have := Finset.card_le_card hsub
  rw [List.toFinset_card_of_nodup hnd] at this
  omega

/-- Effect of processing one dequeued cell's neighbor list: the freshly
pushed cells `P` are exactly the previously unvisited neighbors; they are
appended to the queue, marked visited, and back-pointed to `cell`. -/
theorem bfsProcess_spec (cell : Coordinate) :
    ∀ (ns : List Coordinate) (s : BState), ∃ P : List Coordinate,
      (bfsProcess cell ns s).queue = s.queue ++ P ∧
      (∀ p ∈ P, p ∈ ns ∧ s.vis p = false) ∧
      (∀ v, (bfsProcess cell ns s).vis v = true ↔ (s.vis v = true ∨ v ∈ P)) ∧
      (∀ u ∈ ns, (bfsProcess cell ns s).vis u = true) ∧
      (∀ v, v ∉ P → (bfsProcess cell ns s).bt v = s.bt v) ∧
      (∀ p ∈ P, (bfsProcess cell ns s).bt p = some cell) ∧
      P.Nodup := by
  intro ns
  induction ns with
  | nil =>
    intro s
    refine ⟨[], by simp [bfsProcess], ?_, ?_, ?_, ?_, ?_, List.nodup_nil⟩
    · intro p hp; cases hp
    · intro v; simp [bfsProcess]
    · intro u hu; cases hu
    · intro v _; rfl
    · intro p hp; cases hp
  | cons n ns ih =>
    intro s
    have hunf : bfsProcess cell (n :: ns) s = bfsProcess cell ns (bfsInner cell s n) := rfl
    by_cases hv : s.vis n = true
    · have hinner : bfsInner cell s n = s := by
        unfold bfsInner; rw [if_pos hv]
      obtain ⟨P, h1, h2, h3, h4, h5, h6, h7⟩ := ih s
      rw [hunf, hinner]
      refine ⟨P, h1, ?_, h3, ?_, h5, h6, h7⟩
      · exact fun p hp => ⟨List.mem_cons_of_mem n (h2 p hp).1, (h2 p hp).2⟩
      · intro u hu
        rcases List.mem_cons.mp hu with rfl | hu'
        · exact (h3 u).mpr (Or.inl hv)
        · exact h4 u hu'
    · have hq1 : (bfsInner cell s n).queue = s.queue ++ [n] := by
        unfold bfsInner; rw [if_neg hv]
      have hv1 : ∀ v, (bfsInner cell s n).vis v = if v = n then true else s.vis v := by
        intro v; unfold bfsInner; rw [if_neg hv]
      have hb1 : ∀ v, (bfsInner cell s n).bt v =
          if v = n then some cell else s.bt v := by
        intro v; unfold bfsInner; rw [if_neg hv]
      obtain ⟨P, h1, h2, h3, h4, h5, h6, h7⟩ := ih (bfsInner cell s n)
      have hnP : n ∉ P := by
        intro hnp
        have := (h2 n hnp).2
        rw [hv1 n, if_pos rfl] at this
        cases this
      rw [hunf]
      refine ⟨n :: P, ?_, ?_, ?_, ?_, ?_, ?_, ?_⟩
      · rw [h1, hq1, List.append_assoc, List.singleton_append]
      · intro p hp
        rcases List.mem_cons.mp hp with rfl | hp'
        · exact ⟨List.mem_cons_self p ns, by simpa using hv⟩
        · obtain ⟨hpns, hpvis⟩ := h2 p hp'
          rw [hv1 p] at hpvis
          by_cases hpn : p = n
          · rw [if_pos hpn] at hpvis; cases hpvis
          · rw [if_neg hpn] at hpvis
            exact ⟨List.mem_cons_of_mem n hpns, hpvis⟩
      · intro v
        rw [h3 v, hv1 v, List.mem_cons]
        by_cases hvn : v = n
        · subst hvn
          simp
        · rw [if_neg hvn]
          constructor
          · rintro (h | h)
            · exact Or.inl h
            · exact Or.inr (Or.inr h)
          · rintro (h | rfl | h)
            · exact Or.inl h
            · exact absurd rfl hvn
            · exact Or.inr h
      · intro u hu
        rcases List.mem_cons.mp hu with rfl | hu'
        · rw [h3 u, hv1 u, if_pos rfl]
          exact Or.inl rfl
        · exact h4 u hu'
      · intro v hvP
        rw [List.mem_cons] at hvP
        push_neg at hvP
        rw [h5 v hvP.2, hb1 v, if_neg hvP.1]
      · intro p hp
        rcases List.mem_cons.mp hp with rfl | hp'
        · rw [h5 p hnP, hb1 p, if_pos rfl]
        · exact h6 p hp'
      · exact List.nodup_cons.mpr ⟨hnP, h7⟩

/-- The BFS loop invariant: the queue splits into the current layer `A`
(cells at BFS distance `d` from `s0`) followed by the next layer `B`
(distance `d + 1`); the visited cells are exactly those within distance
`d` plus `B`; every cell at distance `d + 1` is already enqueued or
adjacent to an unprocessed layer-`d` cell; back-pointers step down one
BFS layer; every visited cell other than `s0` has a back-pointer; and
all visited cells lie in `V`. -/
def BInv (nbrs : Coordinate → List Coordinate) (V : Finset Coordinate)
    (s0 : Coordinate) (st : BState) : Prop :=
  ∃ d A B, st.queue = A ++ B ∧
    (∀ a ∈ A, minD nbrs s0 a d) ∧
    (∀ b ∈ B, minD nbrs s0 b (d + 1)) ∧
    (∀ v, st.vis v = true ↔ ((∃ k, k ≤ d ∧ minD nbrs s0 v k) ∨ v ∈ B)) ∧
    (∀ v, minD nbrs s0 v (d + 1) →
      v ∈ B ∨ ∃ c ∈ A, v ∈ nbrs c ∧ minD nbrs s0 c d) ∧
    (∀ v c, st.bt v = some c →
      v ∈ nbrs c ∧ ∃ k, minD nbrs s0 c k ∧ minD nbrs s0 v (k + 1)) ∧
    (∀ v, st.vis v = true → v = s0 ∨ (st.bt v).isSome) ∧
    (∀ v, st.vis v = true → v ∈ V)

/-- A nonempty queue can always be presented with the dequeued cell at
the head of the current layer, advancing the invariant's layer index
when the old current layer is exhausted. -/
theorem BInv_norm {nbrs : Coordinate → List Coordinate} {V : Finset Coordinate}
    {s0 : Coordinate} {st : BState} {cell : Coordinate} {rest : List Coordinate}
    (inv : BInv nbrs V s0 st) (hq : st.queue = cell :: rest) :
    ∃ d A2 B2, rest = A2 ++ B2 ∧ minD nbrs s0 cell d ∧
      (∀ a ∈ A2, minD nbrs s0 a d) ∧
      (∀ b ∈ B2, minD nbrs s0 b (d + 1)) ∧
      (∀ v, st.vis v = true ↔ ((∃ k, k ≤ d ∧ minD nbrs s0 v k) ∨ v ∈ B2)) ∧
      (∀ v, minD nbrs s0 v (d + 1) →
        v ∈ B2 ∨ ∃ c ∈ cell :: A2, v ∈ nbrs c ∧ minD nbrs s0 c d) ∧
      (∀ v c, st.bt v = some c →
        v ∈ nbrs c ∧ ∃ k, minD nbrs s0 c k ∧ minD nbrs s0 v (k + 1)) ∧
      (∀ v, st.vis v = true → v = s0 ∨ (st.bt v).isSome) ∧
      (∀ v, st.vis v = true → v ∈ V) := by
  obtain ⟨d, A, B, hsplit, hA, hB, hvis, hcomp, hbt, hvs, hvV⟩ := inv
  rw [hq] at hsplit
  cases A with
  | cons a A2 =>
    rw [List.cons_append] at hsplit
    injection hsplit with h1 h2
    subst h1
    exact ⟨d, A2, B, h2, hA cell (List.mem_cons_self _ _),
      fun x hx => hA x (List.mem_cons_of_mem _ hx), hB, hvis, hcomp, hbt, hvs, hvV⟩
  | nil =>
    rw [List.nil_append] at hsplit
    refine ⟨d + 1, rest, [], (List.append_nil rest).symm,
      hB cell (hsplit ▸ List.mem_cons_self cell rest), ?_, ?_, ?_, ?_, hbt, hvs, hvV⟩
    · intro a ha
      exact hB a (hsplit ▸ List.mem_cons_of_mem cell ha)
    · intro b hb
      cases hb
    · intro v
      rw [hvis v]
      constructor
      · rintro (⟨k, hk, hkm⟩ | hvB)
        · exact Or.inl ⟨k, by omega, hkm⟩
        · exact Or.inl ⟨d + 1, le_refl _, hB v hvB⟩
      · rintro (⟨k, hk, hkm⟩ | hvB)
        · rcases Nat.lt_or_ge k (d + 1) with h | h
          · exact Or.inl ⟨k, by omega, hkm⟩
          · have hk1 : k = d + 1 := by omega
            subst hk1
            rcases hcomp v hkm with hvB' | ⟨c, hc, -⟩
            · exact Or.inr hvB'
            · cases hc
        · cases hvB
    · intro v hv
      obtain ⟨c, hcv, hcmin⟩ := minD_backstep hv
      rcases hcomp c hcmin with hcB | ⟨c', hc', -⟩
      · exact Or.inr ⟨c, hsplit.symm ▸ hcB, hcv, hcmin⟩
      · cases hc'

/-- Below the BFS distance of any cell all layers are inhabited. -/
theorem minD_layer_down {nbrs : Coordinate → List Coordinate} {s0 : Coordinate} :
    ∀ k v, minD nbrs s0 v k → ∀ j, j ≤ k → ∃ u, minD nbrs s0 u j := by
  intro k
  induction k with
  | zero =>
    intro v h j hj
    obtain rfl : j = 0 := by omega
    exact ⟨v, h⟩
  | succ k ih =>
    intro v h j hj
    rcases Nat.eq_or_lt_of_le hj with rfl | hlt
    · exact ⟨v, h⟩
    · obtain ⟨c, -, hc⟩ := minD_backstep h
      exact ih c hc j (by omega)

/-- One iteration of the BFS loop preserves the invariant and strictly
decreases `queue length + number of unvisited cells`. -/
theorem bfsStep_inv {nbrs : Coordinate → List Coordinate} {V : Finset Coordinate}
    {s0 : Coordinate} (hV : ∀ a b, b ∈ nbrs a → a ∈ V ∧ b ∈ V)
    {st : BState} {cell : Coordinate} {rest : List Coordinate}
    (inv : BInv nbrs V s0 st) (hq : st.queue = cell :: rest)
    (st' : BState) (hst' : st' = bfsProcess cell (nbrs cell) ⟨st.vis, rest, st.bt⟩) :
    BInv nbrs V s0 st' ∧
      st'.queue.length + (V.filter (fun v => st'.vis v = false)).card + 1 ≤
        st.queue.length + (V.filter (fun v => st.vis v = false)).card := by
  obtain ⟨d, A2, B2, hrest, hcell, hA2, hB2, hvis, hcomp, hbt, hvs, hvV⟩ := BInv_norm inv hq
  obtain ⟨P, hq', hP, hvis', hns, hbt', hbtP, hPnd⟩ :=
    bfsProcess_spec cell (nbrs cell) ⟨st.vis, rest, st.bt⟩
  rw [← hst'] at hq' hvis' hns hbt' hbtP
  have hPprop : ∀ p ∈ P, p ∈ nbrs cell ∧ st.vis p = false := hP
  have hminP : ∀ p ∈ P, minD nbrs s0 p (d + 1) := by
    intro p hp
    obtain ⟨hpn, hpv⟩ := hPprop p hp
    obtain ⟨k, hk⟩ := minD_exists ⟨d + 1, hasWalk_extend hcell.1 hpn⟩
    have hkle : k ≤ d + 1 := hk.2 (d + 1) (hasWalk_extend hcell.1 hpn)
    by_cases hkd : k ≤ d
    · exfalso
      have : st.vis p = true := (hvis p).mpr (Or.inl ⟨k, hkd, hk⟩)
      rw [hpv] at this
      cases this
    · have hk1 : k = d + 1 := by omega
      subst hk1
      exact hk
  constructor
  · refine ⟨d, A2, B2 ++ P, ?_, hA2, ?_, ?_, ?_, ?_, ?_, ?_⟩
    · rw [hq', hrest, List.append_assoc]
    · intro b hb
      rcases List.mem_append.mp hb with h | h
      · exact hB2 b h
      · exact hminP b h
    · intro v
      rw [hvis' v, hvis v, List.mem_append]
      constructor
      · rintro ((h | h) | h)
        · exact Or.inl h
        · exact Or.inr (Or.inl h)
        · exact Or.inr (Or.inr h)
      · rintro (h | h | h)
        · exact Or.inl (Or.inl h)
        · exact Or.inl (Or.inr h)
        · exact Or.inr h
    · intro v hv
      rcases hcomp v hv with hvB | ⟨c, hc, hvc, hcd⟩
      · exact Or.inl (List.mem_append_left P hvB)
      · rcases List.mem_cons.mp hc with rfl | hcA2
        · have hvvis : st'.vis v = true := hns v hvc
          rcases (hvis' v).mp hvvis with hold | hvP
          · rcases (hvis v).mp hold with ⟨k, hk, hkm⟩ | hvB2
            · have := minD_unique hkm hv
              omega
            · exact Or.inl (List.mem_append_left P hvB2)
          · exact Or.inl (List.mem_append_right B2 hvP)
        · exact Or.inr ⟨c, hcA2, hvc, hcd⟩
    · intro v c hvc
      by_cases hvP : v ∈ P
      · have := hbtP v hvP
        rw [hvc] at this
        injection this with hcc
        subst hcc
        exact ⟨(hPprop v hvP).1, d, hcell, hminP v hvP⟩
      · rw [hbt' v hvP] at hvc
        exact hbt v c hvc
    · intro v hv
      by_cases hvP : v ∈ P
      · right
        rw [hbtP v hvP]
        rfl
      · rw [hbt' v hvP]
        rcases (hvis' v).mp hv with hold | hvP'
        · exact hvs v hold
        · exact absurd hvP' hvP
    · intro v hv
      rcases (hvis' v).mp hv with hold | hvP
      · exact hvV v hold
      · exact (hV cell v (hPprop v hvP).1).2
  · have hsub : P.toFinset ⊆ V.filter (fun v => st.vis v = false) := by
      intro p hp
      rw [List.mem_toFinset] at hp
      rw [Finset.mem_filter]
      exact ⟨(hV cell p (hPprop p hp).1).2, (hPprop p hp).2⟩
    have hfilter : V.filter (fun v => st'.vis v = false) =
        (V.filter (fun v => st.vis v = false)) \ P.toFinset := by
      ext v
      rw [Finset.mem_sdiff, Finset.mem_filter, Finset.mem_filter, List.mem_toFinset]
      constructor
      · rintro ⟨hvV', hfalse⟩
        have hnot : ¬(st.vis v = true ∨ v ∈ P) := by
          intro h
          have := (hvis' v).mpr h
          rw [hfalse] at this
          cases this
        push_neg at hnot
        refine ⟨⟨hvV', ?_⟩, hnot.2⟩
        cases hstv : st.vis v with
        | false => rfl
        | true => exact absurd hstv hnot.1
      · rintro ⟨⟨hvV', hvf⟩, hvP⟩
        refine ⟨hvV', ?_⟩
        cases hnew : st'.vis v with
        | false => rfl
        | true =>
          rcases (hvis' v).mp hnew with h | h
          · rw [hvf] at h
            cases h
          · exact absurd h hvP
    have hcard : (V.filter (fun v => st'.vis v = false)).card + P.length =
        (V.filter (fun v => st.vis v = false)).card := by
      rw [hfilter, Finset.card_sdiff hsub]
      have hle := Finset.card_le_card hsub
      rw [List.toFinset_card_of_nodup hPnd] at hle ⊢
      omega
    have hlen' : st'.queue.length = rest.length + P.length := by
      rw [hq']
      exact List.length_append rest P
    have hlen : st.queue.length = rest.length + 1 := by
      rw [hq]
      rfl
    omega

/-- The BFS loop terminates within the given fuel and its back-pointer
map is sound (each pointer steps down one BFS layer) and complete
(every cell with a finite BFS distance other than `s0` has a pointer). -/
theorem bfsLoop_spec {nbrs : Coordinate → List Coordinate} {V : Finset Coordinate}
    {s0 : Coordinate} (hV : ∀ a b, b ∈ nbrs a → a ∈ V ∧ b ∈ V) :
    ∀ (fuel : Nat) (st : BState), BInv nbrs V s0 st →
      st.queue.length + (V.filter (fun v => st.vis v = false)).card < fuel →
      ∃ bt, bfsLoop nbrs fuel st = some bt ∧
        (∀ v c, bt v = some c →
          v ∈ nbrs c ∧ ∃ k, minD nbrs s0 c k ∧ minD nbrs s0 v (k + 1)) ∧
        (∀ v k, minD nbrs s0 v k → v = s0 ∨ (bt v).isSome) := by
  intro fuel
  induction fuel with
  | zero =>
    intro st _ hm
    exact absurd hm (Nat.not_lt_zero _)
  | succ fuel ih =>
    intro st inv hm
    obtain ⟨vis, queue, bt⟩ := st
    cases queue with
    | nil =>
      obtain ⟨d, A, B, hsplit, hA, hB, hvis, hcomp, hbt, hvs, hvV⟩ := inv
      obtain ⟨hAnil, hBnil⟩ := List.append_eq_nil.mp hsplit.symm
      subst hAnil
      subst hBnil
      refine ⟨bt, rfl, hbt, ?_⟩
      intro v k hk
      have hkd : k ≤ d := by
        by_contra hgt
        obtain ⟨u, hu⟩ := minD_layer_down k v hk (d + 1) (by omega)
        rcases hcomp u hu with h | ⟨c, hc, -⟩
        · cases h
        · cases hc
      have : BState.vis ⟨vis, [], bt⟩ v = true := (hvis v).mpr (Or.inl ⟨k, hkd, hk⟩)
      exact hvs v this
    | cons cell rest =>
      obtain ⟨inv', hmeas⟩ := bfsStep_inv hV inv rfl
        (bfsProcess cell (nbrs cell) ⟨vis, rest, bt⟩) rfl
      obtain ⟨btF, hrun, hsound, hcompl⟩ :=
        ih (bfsProcess cell (nbrs cell) ⟨vis, rest, bt⟩) inv' (by omega)
      exact ⟨btF, hrun, hsound, hcompl⟩

/-- The initial BFS state satisfies the invariant at layer 0. -/
theorem bfsInit_inv {nbrs : Coordinate → List Coordinate} {V : Finset Coordinate}
    (hs0 : ((0, 0, 0, 0) : Coordinate) ∈ V) :
    BInv nbrs V (0, 0, 0, 0) bfsInit := by
  refine ⟨0, [(0, 0, 0, 0)], [], rfl, ?_, ?_, ?_, ?_, ?_, ?_, ?_⟩
  · intro a ha
    rw [List.mem_singleton] at ha
    subst ha
    exact minD_self _
  · intro b hb
    cases hb
  · intro v
    constructor
    · intro hv
      have hveq : v = (0, 0, 0, 0) := of_decide_eq_true hv
      exact Or.inl ⟨0, le_refl 0, hveq ▸ minD_self _⟩
    · rintro (⟨k, hk, hkm⟩ | hb)
      · obtain rfl : k = 0 := by omega
        exact decide_eq_true (minD_zero hkm)
      · cases hb
  · intro v hv
    obtain ⟨c, hcv, hc⟩ := minD_backstep hv
    exact Or.inr ⟨c, List.mem_singleton.mpr (minD_zero hc), hcv, hc⟩
  · intro v c hvc
    cases hvc
  · intro v hv
    exact Or.inl (of_decide_eq_true hv)
  · intro v hv
    have := of_decide_eq_true hv
    rw [this]
    exact hs0

theorem backtrackRun_base (bt : Coordinate → Option Coordinate) (s0 : Coordinate)
    (fuel : Nat) (acc : List Coordinate) :
    backtrackRun bt s0 fuel s0 acc = some acc := by
  cases fuel with
  | zero =>
    have h1 : backtrackRun bt s0 0 s0 acc =
        if s0 = s0 then some acc else none := rfl
    rw [h1, if_pos rfl]
  | succ f =>
    have h1 : backtrackRun bt s0 (f + 1) s0 acc =
        if s0 = s0 then some acc
        else
          match bt s0 with
          | none => none
          | some p => backtrackRun bt s0 f p (acc ++ [p]) := rfl
    rw [h1, if_pos rfl]

theorem backtrackRun_step (bt : Coordinate → Option Coordinate) (s0 : Coordinate)
    (fuel : Nat) (v : Coordinate) (acc : List Coordinate) (c : Coordinate)
    (hv : ¬v = s0) (hc : bt v = some c) :
    backtrackRun bt s0 (fuel + 1) v acc = backtrackRun bt s0 fuel c (acc ++ [c]) := by
  have h1 : backtrackRun bt s0 (fuel + 1) v acc =
      if v = s0 then some acc
      else
        match bt v with
        | none => none
        | some p => backtrackRun bt s0 fuel p (acc ++ [p]) := rfl
  rw [h1, if_neg hv, hc]

/-- Following the back-pointers from a cell at BFS distance `k` needs
exactly `k` steps and yields a chain of passable moves down to `s0`. -/
theorem backtrackRun_spec {nbrs : Coordinate → List Coordinate} {s0 : Coordinate}
    {bt : Coordinate → Option Coordinate}
    (hbt : ∀ v c, bt v = some c →
      v ∈ nbrs c ∧ ∃ k, minD nbrs s0 c k ∧ minD nbrs s0 v (k + 1))
    (hvs : ∀ v k, minD nbrs s0 v k → v = s0 ∨ (bt v).isSome) :
    ∀ k v, minD nbrs s0 v k → ∀ fuel, k ≤ fuel → ∀ acc,
      ∃ l, backtrackRun bt s0 fuel v acc = some (acc ++ l) ∧
        List.Chain' (fun a b => a ∈ nbrs b) (v :: l) ∧
        (v :: l).getLast? = some s0 ∧ l.length = k := by
  intro k
  induction k with
  | zero =>
    intro v hv fuel _ acc
    obtain rfl := minD_zero hv
    refine ⟨[], ?_, List.chain'_singleton _, rfl, rfl⟩
    rw [List.append_nil]
    exact backtrackRun_base bt v fuel acc
  | succ k ih =>
    intro v hv fuel hfuel acc
    have hvs0 : ¬v = s0 := by
      intro h
      subst h
      have := minD_unique hv (minD_self v)
      omega
    obtain ⟨fuel, rfl⟩ : ∃ f, fuel = f + 1 := ⟨fuel - 1, by omega⟩
    rcases hvs v (k + 1) hv with h | hsome
    · exact absurd h hvs0
    · obtain ⟨c, hc⟩ := Option.isSome_iff_exists.mp hsome
      obtain ⟨hvnc, k', hk'c, hk'v⟩ := hbt v c hc
      obtain rfl : k' = k := by
        have := minD_unique hk'v hv
        omega
      obtain ⟨l, hrun, hchain, hlast, hlen⟩ := ih c hk'c fuel (by omega) (acc ++ [c])
      refine ⟨c :: l, ?_, ?_, ?_, by simp [hlen]⟩
      · rw [backtrackRun_step bt s0 fuel v acc c hvs0 hc, hrun,
          List.append_assoc, List.singleton_append]
      · exact List.chain'_cons.mpr ⟨hvnc, hchain⟩
      · rw [List.getLast?_cons_cons]
        exact hlast

/-- Reachability through carved edges yields a walk along the neighbor map. -/
theorem hasWalk_of_RTG {W H D F : Nat} {stF : KState} {s0 : Coordinate} :
    ∀ {v : Coordinate}, Relation.ReflTransGen (adjCE W H D F stF) s0 v →
      (∀ a b, b ∈ stF.nbrs a ↔ adjCE W H D F stF a b) →
      ∃ m, hasWalk stF.nbrs s0 v m := by
  intro v h hiff
  induction h with
  | refl => exact ⟨0, hasWalk_self _ _⟩
  | tail hab hbc ih =>
    obtain ⟨m, hm⟩ := ih
    exact ⟨m + 1, hasWalk_extend hm ((hiff _ _).mpr hbc)⟩

/-- C3: after `generate_maze`, the `solution` field is a shortest path
from `start` to `finish` over `NoWall` adjacency: its first element is
`start`, its last element is `finish`, every consecutive pair of cells
is one unit step through a `NoWall` boundary, and no strictly shorter
such sequence from `start` to `finish` exists. -/
theorem generate_maze_solution_shortest (W H D F : Nat) (hW : 0 < W) (hH : 0 < H)
    (hD : 0 < D) (hF : 0 < F) (edges : List MazeEdge)
    (hperm : List.Perm edges (enumEdges W H D F)) (wld : World)
    (hgen : generateMaze edges (initialWorld W H D F) = some wld) :
    wld.solution.head? = some wld.start ∧
    wld.solution.getLast? = some wld.finish ∧
    List.Chain' (noWallAdj wld) wld.solution ∧
    ∀ p : List Coordinate, p.head? = some wld.start → p.getLast? = some wld.finish →
      List.Chain' (noWallAdj wld) p → wld.solution.length ≤ p.length := by
  obtain ⟨stF, bt, sol, hrunc, hbfsc, hbtc, hWw, hWh, hWd, hWf, hx, hy, hz, hw,
    hstart, hfinish, hsol⟩ := generateMaze_extract hgen
  obtain ⟨stF2, rep, u, hrun2, inv, hedges, -⟩ :=
    kruskalRun_inv edges (kst0 W H D F) id 0 (kst0_inv W H D F)
      (fun e he => hperm.mem_iff.mp he)
  obtain rfl : stF = stF2 := Option.some.inj (hrunc.symm.trans hrun2)
  have hV : ∀ a b, b ∈ stF.nbrs a → a ∈ cellsF W H D F ∧ b ∈ cellsF W H D F := by
    intro a b hab
    obtain ⟨e, he, -, hp⟩ := (inv.nbr_iff a b).mp hab
    have h1 := cellPair_fst_mem (mem_enumEdges.mp he)
    have h2 := cellPair_snd_mem (mem_enumEdges.mp he)
    rcases hp with hp | hp <;> rw [hp] at h1 h2
    · exact ⟨h1, h2⟩
    · exact ⟨h2, h1⟩
  have hs0V : ((0, 0, 0, 0) : Coordinate) ∈ cellsF W H D F :=
    mem_cellsF.mpr ⟨hW, hH, hD, hF⟩
  have hnpos : 0 < W * H * D * F :=
    Nat.mul_pos (Nat.mul_pos (Nat.mul_pos hW hH) hD) hF
  have hsub : (cellsF W H D F).filter (fun v => bfsInit.vis v = false) ⊆
      (cellsF W H D F).erase (0, 0, 0, 0) := by
    intro v hv
    rw [Finset.mem_filter] at hv
    rw [Finset.mem_erase]
    refine ⟨?_, hv.1⟩
    intro hveq
    have hvt : bfsInit.vis v = true := decide_eq_true hveq
    rw [hv.2] at hvt
    cases hvt
  have hcount := Finset.card_le_card hsub
  rw [Finset.card_erase_of_mem hs0V, card_cellsF] at hcount
  obtain ⟨bt2, hbfs2, hbtsound, hbtcompl⟩ :=
    bfsLoop_spec hV (W * H * D * F + 1) bfsInit (bfsInit_inv hs0V) (by
      show bfsInit.queue.length + _ < _
      have : bfsInit.queue.length = 1 := rfl
      omega)
  obtain rfl : bt = bt2 := Option.some.inj (hbfsc.symm.trans hbfs2)
  have hfinV : ((W - 1, H - 1, D - 1, F - 1) : Coordinate) ∈ cellsF W H D F :=
    mem_cellsF.mpr ⟨show W - 1 < W by omega, show H - 1 < H by omega,
      show D - 1 < D by omega, show F - 1 < F by omega⟩
  have hall : ∀ c ∈ cellsF W H D F, rep c = rep (0, 0, 0, 0) :=
    rep_all_eq (fun e he => hedges e (hperm.mem_iff.mpr he))
  have hreach := inv.reach (0, 0, 0, 0) hs0V (W - 1, H - 1, D - 1, F - 1) hfinV
    ((hall _ hs0V).trans (hall _ hfinV).symm)
  have hwalkfin : ∃ m, hasWalk stF.nbrs (0, 0, 0, 0) (W - 1, H - 1, D - 1, F - 1) m :=
    hasWalk_of_RTG hreach inv.nbr_iff
  obtain ⟨kfin, hkfin⟩ := minD_exists hwalkfin
  have hkbound : kfin < W * H * D * F := by
    have := minD_lt_card hV hs0V hkfin
    rwa [card_cellsF] at this
  obtain ⟨l, hrun, hchain, hlast, hlen⟩ :=
    backtrackRun_spec hbtsound hbtcompl kfin (W - 1, H - 1, D - 1, F - 1) hkfin
      (W * H * D * F + 1) (by omega) [(W - 1, H - 1, D - 1, F - 1)]
  have hsoleq : sol = (W - 1, H - 1, D - 1, F - 1) :: l := by
    have := hbtc.symm.trans hrun
    rw [List.singleton_append] at this
    exact Option.some.inj this
  subst hsoleq
  have hsollen : wld.solution.length = kfin + 1 := by
    rw [hsol, List.length_reverse]
    simp [hlen]
  refine ⟨?_, ?_, ?_, ?_⟩
  · rw [hsol, List.head?_reverse, hstart]
    exact hlast
  · rw [hsol, List.getLast?_reverse, hfinish]
    rfl
  · rw [hsol, List.chain'_reverse]
    refine List.Chain'.imp ?_ hchain
    intro a b hab
    exact adjCE_noWallAdj hWw hWh hWd hWf hx hy hz hw ((inv.nbr_iff b a).mp hab)
  · intro p hph hpl hpc
    have hpne : p ≠ [] := by
      intro h0
      rw [h0] at hph
      cases hph
    have hplen : 0 < p.length := List.length_pos.mpr hpne
    have hpwalk : hasWalk stF.nbrs (0, 0, 0, 0) (W - 1, H - 1, D - 1, F - 1)
        (p.length - 1) := by
      refine ⟨p, ?_, ?_, ?_, by omega⟩
      · refine List.Chain'.imp ?_ hpc
        intro a b hab
        exact (inv.nbr_iff a b).mpr (noWallAdj_adjCE hWw hWh hWd hWf hx hy hz hw hab)
      · rw [hph, hstart]
      · rw [hpl, hfinish]
    have := hkfin.2 (p.length - 1) hpwalk
    omega

/-- Witness for C3 on the concrete 2×2×1×1 run. -/
theorem generate_maze_solution_shortest_witness :
    wld2.solution.head? = some wld2.start ∧
    wld2.solution.getLast? = some wld2.finish ∧
    List.Chain' (noWallAdj wld2) wld2.solution ∧
    ∀ p : List Coordinate, p.head? = some wld2.start → p.getLast? = some wld2.finish →
      List.Chain' (noWallAdj wld2) p → wld2.solution.length ≤ p.length :=
  generate_maze_solution_shortest 2 2 1 1 (by decide) (by decide) (by decide)
    (by decide) edges2 (List.Perm.refl (enumEdges 2 2 1 1)) wld2 gen2_eq

end Maze
